import Mathlib

/-!
dispress, a dissociated press program.

A shallow embedding of `dispress.c` (tokenizer `get_words`, generator
`disassociated_press`, driver `main`) and theorems about it.

Modelling conventions.

* A byte is a `Fin 256`: the value `fgetc` returns when it is not `EOF`.
  A C string is the list of its bytes up to, not including, the terminating NUL.
* A C array is a list of its initialised cells.  Every array read of the source
  is a checked read `rd`: an index outside the initialised cells is the fault
  `badRead`.  Every `%` whose divisor is not visibly positive is a checked
  `cmod` (fault `divByZero`).
* `rand()` is a stream `rand : Nat → Nat` of non-negative draws; the state counts
  the draws made so far.
* `int` values are mathematical integers. The two capacities of `get_words` are
  doubled with a check against `INT_MAX` (`double`, fault `overflow`): these are
  the only `int` values that can leave the range of an `int` on an input that
  `get_words` accepts. Sizes in bytes are assumed to fit in a `size_t`, and
  `malloc` and `realloc` to succeed on such sizes.
* Capacities are tracked for the two buffers of `get_words`; the array `matches`
  of the generator, grown the same way, is the list of its entries.
* The output of the generator is the sequence of its calls of `print_word`; the
  final `printf` of a newline is not a call of `print_word`.
* Loops whose termination is not structural take a fuel argument and
  fault with `outOfFuel` when it runs out.
-/

set_option maxRecDepth 100000

namespace Dispress

/-- One byte of input, as returned by `fgetc` (0..255). -/
abbrev Byte := Fin 256

/-- The bytes of a C string, terminating NUL excluded. -/
abbrev Word := List Byte

/-- Ways in which an execution of the C program can go wrong (or, for
`outOfFuel`, in which the model stops following a loop). -/
inductive Fault
  | divByZero
  | badRead
  | badWrite
  | outOfFuel
  | overflow
  deriving DecidableEq, Repr

deriving instance DecidableEq for Except

/-- Checked array read `arr[i]`. -/
def rd {α : Type} (arr : List α) (i : Nat) : Except Fault α :=
  match arr[i]? with
  | some x => .ok x
  | none => .error .badRead

/-- Checked `a % b` on non-negative operands. -/
def cmod (a b : Nat) : Except Fault Nat :=
  if b = 0 then .error .divByZero else .ok (a % b)

/-- The largest value of an `int` (32 bits). -/
def INT_MAX : Nat := 2147483647

/-- The assignment `x *= 2` on an `int` capacity `x`, giving the new value. A
product above `INT_MAX` is a signed overflow, undefined in C: on the usual
build the value wraps to a negative number, `xrealloc` fails on it and the
process exits. -/
def double (x : Nat) : Except Fault Nat :=
  if x * 2 ≤ INT_MAX then .ok (x * 2) else .error .overflow

/-- The `isspace` of the C locale: space, `\t`, `\n`, `\v`, `\f`, `\r`. -/
def isspace (c : Byte) : Bool :=
  c.val = 32 || (9 ≤ c.val && c.val ≤ 13)

/-- The `tolower` of the C locale. -/
def tolower (c : Byte) : Byte :=
  if 65 ≤ c.val ∧ c.val ≤ 90 then c + 32 else c

/-- The libc `strcasecmp` on two C strings: zero when the strings agree after
`tolower`, otherwise a non-zero integer whose sign is that of the first
difference (POSIX fixes only the sign; the end of a string compares below
every byte). -/
def strcasecmp : Word → Word → Int
  | [], [] => 0
  | [], b :: _ => -((tolower b).val : Int) - 1
  | a :: _, [] => ((tolower a).val : Int) + 1
  | a :: as, b :: bs =>
    if tolower a = tolower b then strcasecmp as bs
    else ((tolower a).val : Int) - ((tolower b).val : Int)

/-- The C string that starts at offset `off` of the buffer `data`. -/
def cstr (data : List Byte) (off : Nat) : Word :=
  (data.drop off).takeWhile (fun c => c != 0)

/-- `struct wodge`: `data` holds the initialised cells of the byte buffer,
`words` the offsets into `data` that the pointers `words[0..num_words)` point
at. -/
structure WODGE where
  words : List Nat
  data : List Byte
  deriving DecidableEq, Repr

/-- The field `num_words`: `get_words` sets it to the number of entries of
`words`. -/
def WODGE.num_words (wodge : WODGE) : Nat := wodge.words.length

/-- The strings `wodge->words[0]`, ..., `wodge->words[num_words - 1]`. -/
def WODGE.tokens (wodge : WODGE) : List Word :=
  wodge.words.map (cstr wodge.data)

/-- Reading the string `wodge->words[j]`. -/
def WODGE.word (wodge : WODGE) (j : Nat) : Except Fault Word :=
  rd wodge.tokens j

/-! ## get_words -/

/-- The byte stored in `data` for the input byte `c`: `isspace(c) ? 0 : c`. -/
def stored (c : Byte) : Byte := if isspace c then 0 else c

/-- First loop of `get_words`:
`while ((c = fgetc(f)) != EOF) { data[data_p++] = isspace(c) ? 0 : c;
 if (data_p >= data_sz) data = xrealloc(data, data_sz *= 2); }`.
The list `data` holds the cells written so far, so `data_p = data.length`. -/
def slurp : List Byte → List Byte → Nat → Except Fault (List Byte × Nat)
  | [], data, data_sz => .ok (data, data_sz)
  | c :: f, data, data_sz =>
    if data.length < data_sz then
      let data := data ++ [stored c]
      if data.length ≥ data_sz then do
        let data_sz ← double data_sz
        slurp f data data_sz
      else slurp f data data_sz
    else .error .badWrite

/-- The loop `while (wodge->data[++i]);`, returning the final `i`. -/
def endOfWord (data : List Byte) : Nat → Nat → Except Fault Nat
  | 0, _ => .error .outOfFuel
  | fuel + 1, i => do
    let i := i + 1
    let c ← rd data i
    if c ≠ 0 then endOfWord data fuel i else pure i

/-- The loop `while (i < data_p && wodge->data[++i] == 0);`, returning the
final `i`. -/
def nextWord (data : List Byte) (data_p : Nat) : Nat → Nat → Except Fault Nat
  | 0, _ => .error .outOfFuel
  | fuel + 1, i =>
    if i < data_p then do
      let i := i + 1
      let c ← rd data i
      if c = 0 then nextWord data data_p fuel i else pure i
    else pure i

/-- The loop `while (i < data_p) { words[words_p++] = &data[i]; ... }` of
`get_words`; `words` holds the offsets stored so far (`words_p = words.length`).
Returns the final `words` and `words_sz`. -/
def indexLoop (data : List Byte) (data_p : Nat) :
    Nat → Nat → List Nat → Nat → Except Fault (List Nat × Nat)
  | 0, _, _, _ => .error .outOfFuel
  | fuel + 1, i, words, words_sz =>
    if i < data_p then
      if words.length < words_sz then do
        let words := words ++ [i]
        let words_sz ← if words.length ≥ words_sz then double words_sz else pure words_sz
        let i ← endOfWord data (data_p + 1) i
        let i ← nextWord data data_p (data_p + 1) i
        indexLoop data data_p fuel i words words_sz
      else .error .badWrite
    else pure (words, words_sz)

/-- `get_words(f)` on the stream whose remaining bytes are `f`. The scans are
run with fuel `data_p + 1`, which `get_words_spec` shows to be enough. -/
def get_words (f : List Byte) : Except Fault WODGE := do
  let (data, data_sz) ← slurp f [] 64
  let data_p := data.length
  -- wodge->data[data_p] = '\0';
  if data_p < data_sz then
    let data := data ++ [0]
    let (words, words_sz) ← indexLoop data data_p (data_p + 1) 0 [] 64
    -- wodge->words[words_p] = NULL;
    if words.length < words_sz then
      pure { words := words, data := data }
    else .error .badWrite
  else .error .badWrite

/-- The maximal runs of bytes that are not separators: split at every
separator and keep the non-empty pieces. -/
def maximalRuns (sep : Byte → Bool) (input : List Byte) : List Word :=
  (input.splitOnP sep).filter (fun r => r ≠ [])

/-- A byte that ends a token: a whitespace byte or NUL. -/
def isSeparator (c : Byte) : Bool := isspace c || c == 0

/-- Bytes written as a string literal. -/
def bytes (s : String) : List Byte :=
  s.toList.map (fun ch => Fin.ofNat ch.toNat)

/-! ## disassociated_press -/

/-- One call of `print_word` made by `disassociated_press`. The index is the
position in `wodge->words` of the string passed; `seed` is a call from a loop
that fills the buffer, `step` the call `print_word(wodge->words[index])` of the
main loop, `marker` the call `print_word("//")`. -/
inductive Item
  | seed (index : Nat) (text : Word)
  | step (index : Nat) (text : Word)
  | marker
  deriving DecidableEq, Repr

/-- The string passed to `print_word`. -/
def Item.text : Item → Word
  | .seed _ t => t
  | .step _ t => t
  | .marker => [47, 47]

/-- The local variables of `disassociated_press` at the head of its main
loop, the number `rng` of calls of `rand()` made so far, the calls `out` of
`print_word` made so far, and the number `restarts` of passes through the
`matches_p == 0` branch so far. -/
structure GenState where
  word_buffer : List Word
  buf_ptr : Nat
  index : Nat
  rng : Nat
  out : List Item
  restarts : Nat
  deriving DecidableEq, Repr

/-- The expression `rand() % (wodge->num_words - (n - 1))` for the draw `r`,
with the `%` of C on `int` (truncating). -/
def seedIndex (num_words n r : Nat) : Except Fault Nat :=
  let d : Int := (num_words : Int) - ((n : Int) - 1)
  if d = 0 then .error .divByZero else .ok (Int.tmod (r : Int) d).toNat

/-- The loop `for (i = 0; i < n; ++i) { word_buffer[i] = wodge->words[index + i];
print_word(word_buffer[i]); }`. The first argument is `n - i`; the cells
`word_buffer[0..i)` written so far are the list `word_buffer`. -/
def fillLoop (wodge : WODGE) (index : Nat) :
    Nat → Nat → List Word → List Item → Except Fault (List Word × List Item)
  | 0, _, word_buffer, out => pure (word_buffer, out)
  | rem + 1, i, word_buffer, out => do
    let w ← wodge.word (index + i)
    fillLoop wodge index rem (i + 1) (word_buffer ++ [w]) (out ++ [Item.seed (index + i) w])

/-- The loop `for (j = i; j < i + n; ++j) if (strcasecmp(word_buffer[(buf_ptr + j - i) % n],
wodge->words[j])) break;`, returning the final `j`. The first argument is
`i + n - j`, so the body runs only when `n > 0` and `j >= i`. -/
def matchLoop (wodge : WODGE) (word_buffer : List Word) (n buf_ptr i : Nat) :
    Nat → Nat → Except Fault Nat
  | 0, j => pure j
  | rem + 1, j => do
    let a ← rd word_buffer ((buf_ptr + j - i) % n)
    let b ← wodge.word j
    if strcasecmp a b ≠ 0 then pure j
    else matchLoop wodge word_buffer n buf_ptr i rem (j + 1)

/-- The loop `for (i = 0; i < wodge->num_words - (n - 1); ++i) { ...;
if (j == i + n) matches[matches_p++] = i; }`. The first argument is the number
of values of `i` still to visit; `found` is `matches[0..matches_p)` (the array
is grown on demand in the source). -/
def searchLoop (wodge : WODGE) (word_buffer : List Word) (n buf_ptr : Nat) :
    Nat → Nat → List Nat → Except Fault (List Nat)
  | 0, _, found => pure found
  | rem + 1, i, found => do
    let j ← matchLoop wodge word_buffer n buf_ptr i n i
    let found := if j = i + n then found ++ [i] else found
    searchLoop wodge word_buffer n buf_ptr rem (i + 1) found

/-- The search of one main-loop pass: `matches_p = 0;` and the loop over `i`.
In `int` arithmetic `i < num_words - (n - 1)` holds for `num_words + 1 - n`
values of `i` (none when the bound is not positive). -/
def search (wodge : WODGE) (word_buffer : List Word) (n buf_ptr : Nat) :
    Except Fault (List Nat) :=
  searchLoop wodge word_buffer n buf_ptr (wodge.num_words + 1 - n) 0 []

/-- The expression `(matches[rand() % matches_p] + n) % wodge->num_words` for the
draw `r`. -/
def pick (wodge : WODGE) (found : List Nat) (n r : Nat) : Except Fault Nat := do
  let k ← cmod r found.length
  let m ← rd found k
  cmod (m + n) wodge.num_words

/-- The loop `do { index = ...; } while (matches_p > 1 && index == oldindex + 1);`,
returning the final `index` and the number of draws made so far. -/
def rejectLoop (wodge : WODGE) (rand : Nat → Nat) (found : List Nat) (n oldindex : Nat) :
    Nat → Nat → Except Fault (Nat × Nat)
  | 0, _ => .error .outOfFuel
  | fuel + 1, rng => do
    let index ← pick wodge found n (rand rng)
    if found.length > 1 ∧ index = oldindex + 1 then
      rejectLoop wodge rand found n oldindex fuel (rng + 1)
    else pure (index, rng + 1)

/-- The choice of the next index:
`if (avoid_normality) { do { ... } while (...); } else { index = ...; }`,
returning the new `index` and the number of draws made so far. -/
def select (wodge : WODGE) (rand : Nat → Nat) (found : List Nat) (n oldindex : Nat)
    (avoid_normality : Bool) (fuel rng : Nat) : Except Fault (Nat × Nat) :=
  if avoid_normality then rejectLoop wodge rand found n oldindex fuel rng
  else do
    let index ← pick wodge found n (rand rng)
    pure (index, rng + 1)

/-- One pass through the body of the main loop `for (; length > 0; --length)`. -/
def iteration (wodge : WODGE) (n : Nat) (avoid_normality show_boundaries : Bool)
    (rand : Nat → Nat) (fuel : Nat) (st : GenState) : Except Fault GenState := do
  let found ← search wodge st.word_buffer n st.buf_ptr
  if found.length = 0 then
    let index ← seedIndex wodge.num_words n (rand st.rng)
    let (word_buffer, out) ← fillLoop wodge index n 0 [] st.out
    -- continue;
    pure { word_buffer := word_buffer, buf_ptr := 0, index := index, rng := st.rng + 1,
           out := out, restarts := st.restarts + 1 }
  else
    let oldindex := st.index
    let (index, rng) ← select wodge rand found n oldindex avoid_normality fuel st.rng
    let out := if show_boundaries ∧ index ≠ oldindex + 1 then st.out ++ [Item.marker] else st.out
    -- print_word(wodge->words[index]);
    let w ← wodge.word index
    let out := out ++ [Item.step index w]
    -- word_buffer[buf_ptr] = wodge->words[index];
    if st.buf_ptr < st.word_buffer.length then
      let word_buffer := st.word_buffer.set st.buf_ptr w
      let buf_ptr ← cmod (st.buf_ptr + 1) n
      pure { word_buffer := word_buffer, buf_ptr := buf_ptr, index := index, rng := rng,
             out := out, restarts := st.restarts }
    else .error .badWrite

/-- The main loop `for (; length > 0; --length) { ... }`: both the `continue` of
the restart branch and the end of the body go on to `--length`. -/
def mainLoop (wodge : WODGE) (n : Nat) (avoid_normality show_boundaries : Bool)
    (rand : Nat → Nat) (fuel : Nat) : Nat → GenState → Except Fault GenState
  | 0, st => pure st
  | length + 1, st => do
    let st ← iteration wodge n avoid_normality show_boundaries rand fuel st
    mainLoop wodge n avoid_normality show_boundaries rand fuel length st

/-- The state at the head of the main loop, after the first seeding. -/
def seeding (wodge : WODGE) (n : Nat) (rand : Nat → Nat) : Except Fault GenState := do
  let index ← seedIndex wodge.num_words n (rand 0)
  let (word_buffer, out) ← fillLoop wodge index n 0 [] []
  pure { word_buffer := word_buffer, buf_ptr := 0, index := index, rng := 1,
         out := out, restarts := 0 }

/-- `disassociated_press(wodge, n, length, avoid_normality, show_boundaries)`,
returning the state when the main loop is left. `fuel` bounds the number of
draws of each run of the rejection loop. -/
def disassociated_press (wodge : WODGE) (n length : Nat)
    (avoid_normality show_boundaries : Bool) (rand : Nat → Nat) (fuel : Nat) :
    Except Fault GenState := do
  let st ← seeding wodge n rand
  mainLoop wodge n avoid_normality show_boundaries rand fuel length st

/-- `main` after option parsing (which yields `n > 0`, `length > 0` and the two
flags): exit status and the calls of `print_word` made. -/
def main (f : List Byte) (n length : Nat) (avoid_normality show_boundaries : Bool)
    (rand : Nat → Nat) (fuel : Nat) : Except Fault (Nat × List Item) := do
  let wodge ← get_words f
  if wodge.num_words < 1 then
    -- exit(1);
    pure (1, [])
  else
    let st ← disassociated_press wodge n length avoid_normality show_boundaries rand fuel
    pure (0, st.out)

/-- The number of main-loop words among the calls of `print_word`. -/
def stepCount (out : List Item) : Nat :=
  (out.filter (fun it => match it with | .step _ _ => true | _ => false)).length

/-- The number of words printed by the loops that fill the buffer. -/
def seedCount (out : List Item) : Nat :=
  (out.filter (fun it => match it with | .seed _ _ => true | _ => false)).length

/-- Whether `strcasecmp(word_buffer[(buf_ptr + k) % n], wodge->words[i + k])` is
zero. -/
def slotMatch (wodge : WODGE) (word_buffer : List Word) (n buf_ptr i k : Nat) : Bool :=
  match word_buffer[(buf_ptr + k) % n]?, wodge.tokens[i + k]? with
  | some a, some b => strcasecmp a b == 0
  | _, _ => false

/-- Whether the comparison loop started at `i` finds no difference in any of
its `n` positions. -/
def windowMatch (wodge : WODGE) (word_buffer : List Word) (n buf_ptr i : Nat) : Bool :=
  (List.range n).all (slotMatch wodge word_buffer n buf_ptr i)

/-- A string passed to `print_word` for a corpus word is the corpus word at the
index recorded with it. -/
def Item.valid (wodge : WODGE) : Item → Prop
  | .seed i t => wodge.tokens[i]? = some t
  | .step i t => wodge.tokens[i]? = some t
  | .marker => True

/-- What holds of the state at the head of the main loop: the window has `n`
cells, the cursor and the position are in range, and every word printed so far
is a corpus word. -/
structure Inv (wodge : WODGE) (n : Nat) (st : GenState) : Prop where
  wb_len : st.word_buffer.length = n
  bp_lt : st.buf_ptr < n
  index_lt : st.index < wodge.num_words
  out_valid : ∀ it ∈ st.out, it.valid wodge

/-- The corpus of the input `the cat sat on the mat the cat ran`. -/
def catWodge : WODGE :=
  { words := [0, 4, 8, 12, 15, 19, 23, 27, 31],
    data := (bytes "the cat sat on the mat the cat ran").map stored ++ [0] }

/-- The corpus of the input `a b`. -/
def abWodge : WODGE :=
  { words := [0, 2], data := (bytes "a b").map stored ++ [0] }

/-- The corpus of the input `a b c`. -/
def abcWodge : WODGE :=
  { words := [0, 2, 4], data := (bytes "a b c").map stored ++ [0] }

/-- A stream of draws for the 9-token corpus: 5, 0, 1, 0, 0, ... -/
def catDraws (k : Nat) : Nat := [5, 0, 1, 0].getD k 0

/-- The state of `disassociated_press` on the 9-token corpus with `n = 2` after
seeding at index 5 (`mat the`) and one step to index 7 (`cat`): the window is
`the cat`, stored rotated. -/
def catState : GenState :=
  { word_buffer := [bytes "cat", bytes "the"], buf_ptr := 1, index := 7, rng := 2,
    out := [Item.seed 5 (bytes "mat"), Item.seed 6 (bytes "the"), Item.step 7 (bytes "cat")],
    restarts := 0 }

/-- The state that follows `catState` with `avoid_normality`: the draw of the
match 6 (next index 8) is rejected, the draw of the match 0 (next index 2) is
taken. -/
def catNext : GenState :=
  { word_buffer := [bytes "cat", bytes "sat"], buf_ptr := 0, index := 2, rng := 4,
    out := [Item.seed 5 (bytes "mat"), Item.seed 6 (bytes "the"), Item.step 7 (bytes "cat"),
            Item.step 2 (bytes "sat")],
    restarts := 0 }

/-- A state on the 9-token corpus with `n = 2` whose window is `cat ran`, the
last two corpus words, stored rotated. -/
def ranState : GenState :=
  { word_buffer := [bytes "ran", bytes "cat"], buf_ptr := 1, index := 8, rng := 0,
    out := [], restarts := 0 }

/-- The number of words among the calls of `print_word`, markers excluded. -/
def wordCount (out : List Item) : Nat :=
  (out.filter (fun it => match it with | .marker => false | _ => true)).length

/-- The words passed to `print_word`, in order, markers excluded. -/
def printedWords (out : List Item) : List Word :=
  out.filterMap (fun it => match it with
    | .seed _ t => some t
    | .step _ t => some t
    | .marker => none)

/-- The window invariant: the window has `n` cells, the cursor is below `n`, at
least `n` words have been printed, and for `k < n` the cell
`word_buffer[(buf_ptr + k) % n]` holds the `k`-th of the last `n` words printed. -/
def WindowInv (n : Nat) (st : GenState) : Prop :=
  st.word_buffer.length = n ∧ st.buf_ptr < n ∧ n ≤ (printedWords st.out).length ∧
  ∀ k, k < n → st.word_buffer[(st.buf_ptr + k) % n]? =
    (printedWords st.out)[(printedWords st.out).length - n + k]?

/-! ## print_word -/

theorem rd_of_getElem? {α : Type} {l : List α} {i : Nat} {x : α} (h : l[i]? = some x) :
    rd l i = .ok x := by
  simp [rd, h]

theorem rd_eq_ok_iff {α : Type} {l : List α} {i : Nat} {x : α} :
    rd l i = .ok x ↔ l[i]? = some x := by
  unfold rd
  cases h : l[i]? <;> simp

@[simp] theorem ok_bind {α β : Type} (a : α) (f : α → Except Fault β) :
    (Except.ok a >>= f) = f a := rfl

@[simp] theorem error_bind {α β : Type} (e : Fault) (f : α → Except Fault β) :
    (Except.error e >>= f) = Except.error e := rfl

@[simp] theorem pure_eq_ok {α : Type} (a : α) : (pure a : Except Fault α) = Except.ok a := rfl

theorem cmod_pos {a b : Nat} (h : 0 < b) : cmod a b = .ok (a % b) := by
  simp [cmod, Nat.pos_iff_ne_zero.mp h]

/-! ## Maximal runs -/

theorem maximalRuns_nil (sep : Byte → Bool) : maximalRuns sep [] = [] := by
  simp [maximalRuns, List.splitOnP_nil]

theorem maximalRuns_cons_sep {sep : Byte → Bool} {c : Byte} (cs : List Byte)
    (h : sep c = true) : maximalRuns sep (c :: cs) = maximalRuns sep cs := by
  simp [maximalRuns, List.splitOnP_cons, h]

theorem splitOnP_eq_takeWhile (sep : Byte → Bool) (l : List Byte) :
    l.splitOnP sep = l.takeWhile (fun c => !sep c) ::
      (match l.dropWhile (fun c => !sep c) with
       | [] => []
       | _ :: r => r.splitOnP sep) := by
  induction l with
  | nil => simp [List.splitOnP_nil]
  | cons x xs ih =>
    rw [List.splitOnP_cons]
    by_cases hx : sep x = true
    · simp [hx]
    · simp only [hx, if_false]
      rw [ih]
      simp [hx, List.modifyHead]

theorem filter_rest_eq (sep : Byte → Bool) (l : List Byte) :
    (match l.dropWhile (fun c => !sep c) with
     | [] => []
     | _ :: r => r.splitOnP sep).filter (fun r => decide (r ≠ [])) =
      maximalRuns sep (l.dropWhile (fun c => !sep c)) := by
  induction l with
  | nil => simp [maximalRuns_nil]
  | cons x xs ih =>
    by_cases hx : sep x = true
    · simp [hx, maximalRuns_cons_sep, maximalRuns]
    · simpa [hx] using ih

theorem maximalRuns_cons_not_sep {sep : Byte → Bool} {c : Byte} (cs : List Byte)
    (h : sep c = false) :
    maximalRuns sep (c :: cs) =
      (c :: cs.takeWhile (fun c => !sep c)) ::
        maximalRuns sep (cs.dropWhile (fun c => !sep c)) := by
  have h1 := splitOnP_eq_takeWhile sep (c :: cs)
  have h2 := filter_rest_eq sep (c :: cs)
  simp only [List.takeWhile_cons, List.dropWhile_cons, h, Bool.not_false, if_true] at h1 h2
  unfold maximalRuns at h2 ⊢
  rw [h1, List.filter_cons]
  simp only [ne_eq, reduceCtorEq, not_false_eq_true, decide_True, if_true]
  rw [h2]

/-! ## get_words: the two loops -/

theorem double_ok {x : Nat} (h : x < 1073741824) : double x = .ok (x * 2) := by
  unfold double INT_MAX
  rw [if_pos (by omega)]

theorem slurp_spec (f : List Byte) : ∀ (data : List Byte) (data_sz : Nat),
    data.length < data_sz → data.length + f.length < 1073741824 →
    ∃ sz, slurp f data data_sz = .ok (data ++ f.map stored, sz) ∧
      (data ++ f.map stored).length < sz := by
  induction f with
  | nil => intro data data_sz h _; exact ⟨data_sz, by simp [slurp], by simpa using h⟩
  | cons c f ih =>
    intro data data_sz h hsize
    have hl : (data ++ [stored c]).length = data.length + 1 := by simp
    have hsize2 : (data ++ [stored c]).length + f.length < 1073741824 := by
      rw [hl]; simp only [List.length_cons] at hsize; omega
    by_cases hge : (data ++ [stored c]).length ≥ data_sz
    · obtain ⟨sz, h1, h2⟩ := ih (data ++ [stored c]) (data_sz * 2) (by omega) hsize2
      refine ⟨sz, ?_, by simpa using h2⟩
      simp only [slurp, h, if_true, hge, double_ok (show data_sz < 1073741824 by omega),
        ok_bind]
      simpa using h1
    · obtain ⟨sz, h1, h2⟩ := ih (data ++ [stored c]) data_sz (by omega) hsize2
      refine ⟨sz, ?_, by simpa using h2⟩
      simp only [slurp, h, if_true, hge, if_false]
      simpa using h1

theorem slurp_capacity (f : List Byte) : ∀ (data : List Byte) (data_sz : Nat),
    data.length < data_sz → data.length + f.length < 1073741824 → data_sz ≤ INT_MAX →
    ∃ sz, slurp f data data_sz = .ok (data ++ f.map stored, sz) ∧
      (data ++ f.map stored).length < sz ∧ sz ≤ INT_MAX := by
  induction f with
  | nil =>
    intro data data_sz h _ hmax
    exact ⟨data_sz, by simp [slurp], by simpa using h, hmax⟩
  | cons c f ih =>
    intro data data_sz h hsize hmax
    have hl : (data ++ [stored c]).length = data.length + 1 := by simp
    have hsize2 : (data ++ [stored c]).length + f.length < 1073741824 := by
      rw [hl]; simp only [List.length_cons] at hsize; omega
    by_cases hge : (data ++ [stored c]).length ≥ data_sz
    · obtain ⟨sz, h1, h2, h3⟩ := ih (data ++ [stored c]) (data_sz * 2) (by omega) hsize2
        (by unfold INT_MAX; omega)
      refine ⟨sz, ?_, by simpa using h2, h3⟩
      simp only [slurp, h, if_true, hge, double_ok (show data_sz < 1073741824 by omega),
        ok_bind]
      simpa using h1
    · obtain ⟨sz, h1, h2, h3⟩ := ih (data ++ [stored c]) data_sz (by omega) hsize2 hmax
      refine ⟨sz, ?_, by simpa using h2, h3⟩
      simp only [slurp, h, if_true, hge, if_false]
      simpa using h1

theorem slurp_data (f : List Byte) : ∀ (data : List Byte) (data_sz : Nat)
    (r : List Byte × Nat), slurp f data data_sz = .ok r → r.1 = data ++ f.map stored := by
  induction f with
  | nil =>
    intro data data_sz r h
    simp only [slurp, Except.ok.injEq] at h
    subst h
    simp
  | cons c f ih =>
    intro data data_sz r h
    by_cases hw : data.length < data_sz
    · by_cases hge : (data ++ [stored c]).length ≥ data_sz
      · simp only [slurp, hw, if_true, hge] at h
        cases hd : double data_sz with
        | error e => simp [hd] at h
        | ok sz =>
          simp only [hd, ok_bind] at h
          simpa using ih _ _ r h
      · simp only [slurp, hw, if_true, hge, if_false] at h
        simpa using ih _ _ r h
    · simp [slurp, hw] at h

/-- Reading `2^30` bytes or more makes the doubling of `data_sz` overflow: the
capacity is a power of two, at most `2^30`, when the byte number `2^30` is
stored. -/
theorem slurp_overflow (f : List Byte) : ∀ (data : List Byte) (data_sz j : Nat),
    data_sz = 2 ^ j → j ≤ 30 → data.length < data_sz →
    1073741824 ≤ data.length + f.length →
    slurp f data data_sz = .error .overflow := by
  induction f with
  | nil =>
    intro data data_sz j hj hj30 h hsize
    have : 2 ^ j ≤ 2 ^ 30 := Nat.pow_le_pow_right (by omega) hj30
    simp only [List.length_nil, Nat.add_zero] at hsize
    omega
  | cons c f ih =>
    intro data data_sz j hj hj30 h hsize
    have hl : (data ++ [stored c]).length = data.length + 1 := by simp
    have hsize2 : 1073741824 ≤ (data ++ [stored c]).length + f.length := by
      rw [hl]; simp only [List.length_cons] at hsize; omega
    by_cases hge : (data ++ [stored c]).length ≥ data_sz
    · by_cases hd : data_sz * 2 ≤ INT_MAX
      · have hj1 : j + 1 ≤ 30 := by
          rcases Nat.lt_or_ge j 30 with hlt | hge30
          · omega
          · have : 2 ^ 30 ≤ 2 ^ j := Nat.pow_le_pow_right (by omega) hge30
            unfold INT_MAX at hd
            omega
        have hdo : double data_sz = .ok (data_sz * 2) := by
          unfold double; rw [if_pos hd]
        simp only [slurp, h, if_true, hge, hdo, ok_bind]
        exact ih (data ++ [stored c]) (data_sz * 2) (j + 1) (by rw [hj, Nat.pow_succ])
          hj1 (by omega) hsize2
      · have hdo : double data_sz = .error .overflow := by
          unfold double; rw [if_neg hd]
        simp only [slurp, h, if_true, hge, hdo, error_bind]
    · simp only [slurp, h, if_true, hge, if_false]
      exact ih (data ++ [stored c]) data_sz j hj hj30 (by omega) hsize2

theorem drop_eq_cons_of_getElem? {l : List Byte} {i : Nat} {c : Byte} (h : l[i]? = some c) :
    l.drop i = c :: l.drop (i + 1) := by
  obtain ⟨hi, rfl⟩ := List.getElem?_eq_some_iff.mp h
  exact List.drop_eq_getElem_cons hi

theorem endOfWord_spec (data : List Byte) (data_p : Nat) (hlen : data.length = data_p + 1)
    (hlast : data[data_p]? = some 0) : ∀ (fuel i : Nat), i < data_p → data_p - i ≤ fuel →
    ∃ e, endOfWord data fuel i = .ok e ∧ i < e ∧ e ≤ data_p ∧ data[e]? = some 0 ∧
      data.drop e = (data.drop (i + 1)).dropWhile (fun c => c != 0) := by
  intro fuel
  induction fuel with
  | zero => intro i h1 h2; omega
  | succ fuel ih =>
    intro i h1 h2
    have hi : i + 1 < data.length := by omega
    have hget : data[i + 1]? = some data[i + 1] := List.getElem?_eq_getElem hi
    have hdrop := drop_eq_cons_of_getElem? hget
    by_cases hc : data[i + 1] = 0
    · refine ⟨i + 1, ?_, by omega, by omega, by rw [hget, hc], ?_⟩
      · simp [endOfWord, rd_of_getElem? hget, hc]
      · rw [hdrop]; simp [hc]
    · have hlt : i + 1 < data_p := by
        rcases Nat.lt_or_ge (i + 1) data_p with h | h
        · exact h
        · have : i + 1 = data_p := by omega
          rw [← this, hget] at hlast
          exact absurd (Option.some.inj hlast) hc
      obtain ⟨e, he, h3, h4, h5, h6⟩ := ih (i + 1) hlt (by omega)
      refine ⟨e, ?_, by omega, h4, h5, ?_⟩
      · simp [endOfWord, rd_of_getElem? hget, hc, he]
      · rw [h6, hdrop, List.dropWhile_cons, if_pos (by simpa using hc)]

theorem nextWord_spec (data : List Byte) (data_p : Nat) (hlen : data.length = data_p + 1) :
    ∀ (fuel i : Nat), i ≤ data_p → data[i]? = some 0 → data_p - i < fuel →
    ∃ r, nextWord data data_p fuel i = .ok r ∧ i ≤ r ∧ r ≤ data_p ∧ (i < data_p → i < r) ∧
      (r < data_p → ∃ c, data[r]? = some c ∧ c ≠ 0) ∧
      maximalRuns (fun c => c == 0) (data.drop r) =
        maximalRuns (fun c => c == 0) (data.drop i) := by
  intro fuel
  induction fuel with
  | zero => intro i h1 _ h2; omega
  | succ fuel ih =>
    intro i h1 h0 h2
    by_cases hi : i < data_p
    · have hi1 : i + 1 < data.length := by omega
      have hget : data[i + 1]? = some data[i + 1] := List.getElem?_eq_getElem hi1
      have hruns : maximalRuns (fun c => c == 0) (data.drop i) =
          maximalRuns (fun c => c == 0) (data.drop (i + 1)) := by
        rw [drop_eq_cons_of_getElem? h0]
        exact maximalRuns_cons_sep _ (by simp)
      by_cases hc : data[i + 1] = 0
      · obtain ⟨r, hr, h3, h4, _, h6, h7⟩ := ih (i + 1) (by omega) (by rw [hget, hc]) (by omega)
        refine ⟨r, ?_, by omega, h4, fun _ => by omega, h6, by rw [h7, hruns]⟩
        simp [nextWord, hi, rd_of_getElem? hget, hc, hr]
      · refine ⟨i + 1, ?_, by omega, by omega, fun _ => by omega,
          fun _ => ⟨_, hget, hc⟩, hruns.symm⟩
        simp [nextWord, hi, rd_of_getElem? hget, hc]
    · refine ⟨i, ?_, le_refl _, h1, fun h => absurd h hi, fun h => absurd h hi, rfl⟩
      simp [nextWord, hi]

theorem drop_last_cell (data : List Byte) (data_p : Nat) (hlen : data.length = data_p + 1)
    (hlast : data[data_p]? = some 0) : data.drop data_p = [0] := by
  rw [drop_eq_cons_of_getElem? hlast, List.drop_of_length_le (by omega)]

theorem runs_at_word_start (data : List Byte) (data_p : Nat) (hlen : data.length = data_p + 1)
    (hlast : data[data_p]? = some 0) (r : Nat) (hr : r ≤ data_p)
    (hne : r < data_p → ∃ c, data[r]? = some c ∧ c ≠ 0) :
    (if r < data_p then
        cstr data r :: maximalRuns (fun c => c == 0)
          ((data.drop (r + 1)).dropWhile (fun c => c != 0))
      else []) = maximalRuns (fun c => c == 0) (data.drop r) := by
  by_cases h : r < data_p
  · obtain ⟨c, hc, hc0⟩ := hne h
    have hsep : (fun c : Byte => c == 0) c = false := by simpa using hc0
    rw [if_pos h, drop_eq_cons_of_getElem? hc,
      @maximalRuns_cons_not_sep (fun c => c == 0) c _ hsep]
    have hcs : cstr data r = c :: (data.drop (r + 1)).takeWhile (fun c => c != 0) := by
      unfold cstr
      rw [drop_eq_cons_of_getElem? hc, List.takeWhile_cons, if_pos (by simpa using hc0)]
    rw [hcs]
    rfl
  · have : r = data_p := by omega
    subst this
    rw [if_neg h, drop_last_cell data r hlen hlast]
    exact ((@maximalRuns_cons_sep (fun c => c == 0) 0 [] (by simp)).trans
      (maximalRuns_nil _)).symm

theorem indexLoop_step (data : List Byte) (data_p fuel i : Nat) (words : List Nat)
    (words_sz : Nat) (hi : i < data_p) (h1 : words.length < words_sz)
    (h2 : words.length ≤ i) (hsize : data_p < 1073741824) :
    indexLoop data data_p (fuel + 1) i words words_sz =
      (endOfWord data (data_p + 1) i >>= fun e =>
        nextWord data data_p (data_p + 1) e >>= fun r =>
          indexLoop data data_p fuel r (words ++ [i])
            (if (words ++ [i]).length ≥ words_sz then words_sz * 2 else words_sz)) := by
  simp only [indexLoop, hi, h1, if_true]
  by_cases hge : (words ++ [i]).length ≥ words_sz
  · simp only [hge, if_true, double_ok (show words_sz < 1073741824 by
      simp only [List.length_append, List.length_singleton] at hge; omega), ok_bind]
  · simp only [hge, if_false, pure_eq_ok, ok_bind]

theorem indexLoop_spec (data : List Byte) (data_p : Nat) (hlen : data.length = data_p + 1)
    (hlast : data[data_p]? = some 0) (hsize : data_p < 1073741824) :
    ∀ (fuel i : Nat) (words : List Nat) (words_sz : Nat),
    i ≤ data_p → words.length < words_sz → words.length ≤ i → data_p - i < fuel →
    ∃ offs sz, indexLoop data data_p fuel i words words_sz = .ok (words ++ offs, sz) ∧
      (words ++ offs).length < sz ∧
      offs.map (cstr data) =
        (if i < data_p then
          cstr data i :: maximalRuns (fun c => c == 0)
            ((data.drop (i + 1)).dropWhile (fun c => c != 0))
        else []) := by
  intro fuel
  induction fuel with
  | zero => intro i words words_sz _ _ _ h; omega
  | succ fuel ih =>
    intro i words words_sz h1 h2 hwi h3
    by_cases hi : i < data_p
    · obtain ⟨e, he, e1, e2, e3, e4⟩ :=
        endOfWord_spec data data_p hlen hlast (data_p + 1) i hi (by omega)
      obtain ⟨r, hr, r1, r2, _, r4, r5⟩ :=
        nextWord_spec data data_p hlen (data_p + 1) e e2 e3 (by omega)
      have hsz : (words ++ [i]).length <
          (if (words ++ [i]).length ≥ words_sz then words_sz * 2 else words_sz) := by
        simp only [List.length_append, List.length_singleton]
        split <;> omega
      obtain ⟨offs, sz, ho, hs, hm⟩ := ih r (words ++ [i]) _ r2 hsz
        (by simp only [List.length_append, List.length_singleton]; omega) (by omega)
      refine ⟨i :: offs, sz, ?_, ?_, ?_⟩
      · rw [indexLoop_step data data_p fuel i words words_sz hi h2 hwi hsize, he, ok_bind,
          hr, ok_bind]
        simpa using ho
      · simpa using hs
      · rw [if_pos hi, List.map_cons, hm,
          runs_at_word_start data data_p hlen hlast r r2 r4, r5, e4]
    · refine ⟨[], words_sz, ?_, by simpa using h2, by simp [hi]⟩
      simp [indexLoop, hi]

theorem splitOnP_append_sep (sep : Byte → Bool) (s : Byte) (hs : sep s = true)
    (l : List Byte) : (l ++ [s]).splitOnP sep = l.splitOnP sep ++ [[]] := by
  induction l with
  | nil => simp [List.splitOnP_cons, hs, List.splitOnP_nil]
  | cons x xs ih =>
    rw [List.cons_append, List.splitOnP_cons, List.splitOnP_cons, ih]
    by_cases hx : sep x = true
    · simp [hx]
    · simp only [hx, if_false]
      cases hsp : xs.splitOnP sep with
      | nil => exact absurd hsp (List.splitOnP_ne_nil _ _)
      | cons a as => simp [List.modifyHead]

theorem maximalRuns_append_sep (sep : Byte → Bool) (s : Byte) (hs : sep s = true)
    (l : List Byte) : maximalRuns sep (l ++ [s]) = maximalRuns sep l := by
  simp [maximalRuns, splitOnP_append_sep sep s hs]

theorem splitOnP_map_stored (f : List Byte) :
    (f.map stored).splitOnP (fun c => c == 0) = f.splitOnP isSeparator := by
  induction f with
  | nil => simp [List.splitOnP_nil]
  | cons x xs ih =>
    rw [List.map_cons, List.splitOnP_cons, List.splitOnP_cons, ih]
    by_cases hx : isSeparator x = true
    · have : stored x = 0 := by
        unfold stored
        unfold isSeparator at hx
        by_cases hsp : isspace x = true
        · simp [hsp]
        · simp [hsp] at hx
          simp [hsp, hx]
      simp [hx, this]
    · have h1 : isspace x = false := by
        unfold isSeparator at hx
        cases h : isspace x <;> simp_all
      have h2 : x ≠ 0 := by
        unfold isSeparator at hx
        intro h; simp [h] at hx
      have : stored x = x := by simp [stored, h1]
      simp [hx, this, h2]

theorem maximalRuns_map_stored (f : List Byte) :
    maximalRuns (fun c => c == 0) (f.map stored) = maximalRuns isSeparator f := by
  unfold maximalRuns
  rw [splitOnP_map_stored]

/-- What `get_words` returns on every input of fewer than `2^30` bytes: the
buffer is the input with every whitespace byte replaced by NUL, followed by one NUL;
the first token starts at offset 0 whatever byte is there, and the next ones
are the runs of non-NUL bytes found after the end of that first token. -/
theorem get_words_spec (f : List Byte) (hsize : f.length < 1073741824) :
    ∃ words, get_words f = .ok { words := words, data := f.map stored ++ [0] } ∧
      words.map (cstr (f.map stored ++ [0])) =
        (if 0 < f.length then
          cstr (f.map stored ++ [0]) 0 :: maximalRuns (fun c => c == 0)
            (((f.map stored ++ [0]).drop 1).dropWhile (fun c => c != 0))
        else []) := by
  obtain ⟨sz, hsl, hsz⟩ := slurp_spec f [] 64 (by simp) (by simpa using hsize)
  simp only [List.nil_append] at hsl hsz
  have hlen : (f.map stored ++ [0]).length = (f.map stored).length + 1 := by simp
  have hlast : (f.map stored ++ [0])[(f.map stored).length]? = some 0 := by
    simp
  obtain ⟨offs, sz2, ho, hs, hm⟩ :=
    indexLoop_spec _ _ hlen hlast (by simpa using hsize) ((f.map stored).length + 1) 0 [] 64
      (by omega) (by simp) (by simp) (by omega)
  simp only [List.nil_append] at ho hs
  refine ⟨offs, ?_, ?_⟩
  · unfold get_words
    simp only [hsl, ok_bind, hsz, if_true, ho, hs, pure_eq_ok]
  · rw [hm]; simp

/-- On an input of `2^30` bytes or more `get_words` does not return: the
doubling of `data_sz` overflows. -/
theorem get_words_overflow (f : List Byte) (hsize : 1073741824 ≤ f.length) :
    get_words f = .error .overflow := by
  have h := slurp_overflow f [] 64 6 (by norm_num) (by omega) (by simp) (by simpa using hsize)
  unfold get_words
  simp only [h, error_bind]

theorem slurp_replicate_overflow (n : Nat) (c : Byte) (h : 1073741824 ≤ n) :
    slurp (List.replicate n c) [] 64 = .error .overflow :=
  slurp_overflow (List.replicate n c) [] 64 6 (by norm_num) (by omega) (by simp)
    (by rw [List.length_replicate, List.length_nil]; omega)

theorem get_words_replicate_overflow (n : Nat) (c : Byte) (h : 1073741824 ≤ n) :
    get_words (List.replicate n c) = .error .overflow :=
  get_words_overflow (List.replicate n c) (by rw [List.length_replicate]; exact h)

theorem replicate_no_nul (n : Nat) (a : Byte) (ha : a ≠ 0) :
    ∀ c ∈ List.replicate n a, c ≠ 0 := by
  intro c hc
  rw [List.eq_of_mem_replicate hc]
  exact ha

theorem replicate_head (n : Nat) (a : Byte) (ha : isspace a = false) :
    ∀ c, (List.replicate n a).head? = some c → isspace c = false := by
  intro c hc
  rw [List.eq_of_mem_replicate (List.mem_of_mem_head? hc)]
  exact ha

theorem get_words_runs (f : List Byte) (hsize : f.length < 1073741824)
    (hhead : ∀ c, f.head? = some c → isSeparator c = false) :
    ∃ wodge, get_words f = .ok wodge ∧ wodge.data = f.map stored ++ [0] ∧
      wodge.tokens = maximalRuns isSeparator f := by
  obtain ⟨words, hw, ht⟩ := get_words_spec f hsize
  refine ⟨_, hw, rfl, ?_⟩
  have hlen : (f.map stored ++ [0]).length = (f.map stored).length + 1 := by simp
  have hlast : (f.map stored ++ [0])[(f.map stored).length]? = some 0 := by simp
  have hstart : 0 < (f.map stored).length →
      ∃ c, (f.map stored ++ [0])[0]? = some c ∧ c ≠ 0 := by
    intro _
    cases f with
    | nil => simp at *
    | cons x xs =>
      have hx := hhead x rfl
      unfold isSeparator at hx
      simp only [Bool.or_eq_false_iff] at hx
      refine ⟨stored x, by simp, ?_⟩
      simp only [stored, hx.1]
      simpa using hx.2
  have h := runs_at_word_start _ _ hlen hlast 0 (Nat.zero_le _) hstart
  simp only [List.length_map, List.drop_zero, Nat.zero_add] at h
  show words.map (cstr (f.map stored ++ [0])) = _
  rw [ht, h, maximalRuns_append_sep _ 0 (by simp), maximalRuns_map_stored]

/-- C1 (amended): for every input byte sequence of fewer than `2^30` bytes that
does not begin with a whitespace byte or a NUL byte, `get_words` returns a token
list that equals, in order and byte for byte, the list of maximal runs of
bytes that are neither whitespace nor NUL; in particular the number of tokens
is the number of such runs. -/
theorem get_words_tokens_eq_runs (f : List Byte) (hsize : f.length < 1073741824)
    (hhead : ∀ c, f.head? = some c → isSeparator c = false) :
    ∃ wodge, get_words f = .ok wodge ∧
      wodge.tokens = maximalRuns isSeparator f ∧
      wodge.num_words = (maximalRuns isSeparator f).length := by
  obtain ⟨wodge, h1, _, h3⟩ := get_words_runs f hsize hhead
  refine ⟨wodge, h1, h3, ?_⟩
  rw [← h3]
  simp [WODGE.num_words, WODGE.tokens]

/-- C1, witness: the input `the cat  sat` followed by a newline. -/
theorem get_words_tokens_eq_runs_witness :
    ((bytes "the cat  sat\n").length < 1073741824 ∧
      ∀ c, (bytes "the cat  sat\n").head? = some c → isSeparator c = false) ∧
    ∃ wodge, get_words (bytes "the cat  sat\n") = .ok wodge ∧
      wodge.tokens = maximalRuns isSeparator (bytes "the cat  sat\n") ∧
      wodge.num_words = (maximalRuns isSeparator (bytes "the cat  sat\n")).length :=
  ⟨by decide, get_words_tokens_eq_runs (bytes "the cat  sat\n") (by decide) (by decide)⟩

/-- C1, counterexample: on the two bytes space, `a` the only token of `get_words`
is the empty string while the only run of non-whitespace bytes is `a`; on the
three bytes `a`, NUL, `b` the tokens are `a` and `b` while the only run of
non-whitespace bytes is the whole input; on the input of `2^30` bytes `a` the
doubling of `data_sz` overflows and `get_words` does not return. -/
theorem get_words_tokens_ne_runs :
    (get_words (bytes " a")).map WODGE.tokens ≠ .ok (maximalRuns isspace (bytes " a")) ∧
    (get_words (bytes " a")).map WODGE.tokens = .ok [[]] ∧
    maximalRuns isspace (bytes " a") = [bytes "a"] ∧
    (get_words [97, 0, 98]).map WODGE.tokens = .ok [[97], [98]] ∧
    maximalRuns isspace [97, 0, 98] = [[97, 0, 98]] ∧
    get_words (List.replicate 1073741824 97) = .error .overflow :=
  ⟨by decide, by decide, by decide, by decide, by decide,
    get_words_replicate_overflow 1073741824 97 (Nat.le_refl _)⟩

/-- C9, at the failing inputs: for the one-byte input consisting of a space, and
for the input newline, tab, space, `get_words` returns one token, the empty
string, so `num_words = 1`; `main` then does not stop at its `num_words < 1` check
and calls `print_word`. -/
theorem get_words_whitespace_only_one_token :
    (get_words (bytes " ")).map (fun w => (w.num_words, w.tokens)) = .ok (1, [[]]) ∧
    (get_words (bytes "\n\t ")).map (fun w => (w.num_words, w.tokens)) = .ok (1, [[]]) ∧
    (get_words []).map (fun w => (w.num_words, w.tokens)) = .ok (0, []) ∧
    main (bytes " ") 1 1 false false (fun _ => 0) 0 =
      .ok (0, [Item.seed 0 [], Item.step 0 []]) := by
  decide

/-! ## The example corpora -/

theorem get_words_cat :
    get_words (bytes "the cat sat on the mat the cat ran") = .ok catWodge ∧
    catWodge.tokens = (["the", "cat", "sat", "on", "the", "mat", "the", "cat", "ran"].map bytes) := by
  decide

theorem get_words_ab : get_words (bytes "a b") = .ok abWodge := by decide

theorem get_words_abc : get_words (bytes "a b c") = .ok abcWodge := by decide

/-! ## disassociated_press: reading the corpus -/

theorem tokens_length (wodge : WODGE) : wodge.tokens.length = wodge.num_words := by
  simp [WODGE.tokens, WODGE.num_words]

theorem word_of_lt (wodge : WODGE) {j : Nat} (h : j < wodge.num_words) :
    ∃ t, wodge.tokens[j]? = some t ∧ wodge.word j = .ok t := by
  have h2 : j < wodge.tokens.length := by rw [tokens_length]; exact h
  exact ⟨wodge.tokens[j], List.getElem?_eq_getElem h2,
    rd_of_getElem? (List.getElem?_eq_getElem h2)⟩

theorem word_eq_ok_iff (wodge : WODGE) {j : Nat} {t : Word} :
    wodge.word j = .ok t ↔ wodge.tokens[j]? = some t := rd_eq_ok_iff

theorem seedIndex_spec {num_words n : Nat} (hnw : n ≤ num_words) (r : Nat) :
    seedIndex num_words n r = .ok (r % (num_words + 1 - n)) ∧
      r % (num_words + 1 - n) + n ≤ num_words := by
  have hd : (num_words : Int) - ((n : Int) - 1) = ((num_words + 1 - n : Nat) : Int) := by
    omega
  have hpos : 0 < num_words + 1 - n := by omega
  constructor
  · unfold seedIndex
    simp only [hd]
    rw [if_neg (by omega), ← Int.ofNat_tmod, Int.toNat_ofNat]
  · have := Nat.mod_lt r hpos
    omega

/-! ## disassociated_press: filling the buffer -/

theorem fillLoop_spec (wodge : WODGE) (index : Nat) :
    ∀ (rem i : Nat) (word_buffer : List Word) (out : List Item),
    index + i + rem ≤ wodge.num_words →
    fillLoop wodge index rem i word_buffer out =
      .ok (word_buffer ++ (wodge.tokens.drop (index + i)).take rem,
           out ++ List.zipWith Item.seed (List.range' (index + i) rem)
             ((wodge.tokens.drop (index + i)).take rem)) := by
  intro rem
  induction rem with
  | zero => intro i wb out _; simp [fillLoop]
  | succ rem ih =>
    intro i wb out h
    obtain ⟨t, ht, hw⟩ := word_of_lt wodge (show index + i < wodge.num_words by omega)
    have hdrop : wodge.tokens.drop (index + i) = t :: wodge.tokens.drop (index + i + 1) := by
      obtain ⟨hi, rfl⟩ := List.getElem?_eq_some_iff.mp ht
      exact List.drop_eq_getElem_cons hi
    simp only [fillLoop, hw, ok_bind]
    rw [ih (i + 1) _ _ (by omega), hdrop, List.take_succ_cons, List.range'_succ,
      List.zipWith_cons_cons]
    simp [Nat.add_assoc]

theorem fillLoop_out (wodge : WODGE) (index : Nat) :
    ∀ (rem i : Nat) (word_buffer : List Word) (out : List Item) (r : List Word × List Item),
    fillLoop wodge index rem i word_buffer out = .ok r →
    ∃ seeds, r.2 = out ++ seeds ∧ seeds.length = rem ∧
      ∀ it ∈ seeds, ∃ j t, it = Item.seed j t ∧ wodge.tokens[j]? = some t := by
  intro rem
  induction rem with
  | zero =>
    intro i wb out r h
    simp only [fillLoop, pure_eq_ok, Except.ok.injEq] at h
    subst h
    exact ⟨[], by simp, rfl, by simp⟩
  | succ rem ih =>
    intro i wb out r h
    simp only [fillLoop] at h
    cases hw : wodge.word (index + i) with
    | error e => simp [hw] at h
    | ok t =>
      simp only [hw, ok_bind] at h
      obtain ⟨seeds, h1, h2, h3⟩ := ih _ _ _ _ h
      refine ⟨Item.seed (index + i) t :: seeds, by simp [h1], by simp [h2], ?_⟩
      intro it hit
      rcases List.mem_cons.mp hit with rfl | hit
      · exact ⟨_, _, rfl, (word_eq_ok_iff wodge).mp hw⟩
      · exact h3 it hit

/-! ## disassociated_press: the search -/

theorem matchLoop_spec (wodge : WODGE) (word_buffer : List Word) (n buf_ptr i : Nat)
    (hwb : word_buffer.length = n) (hi : i + n ≤ wodge.num_words) :
    ∀ (rem k0 : Nat), k0 + rem = n →
    ∃ r, matchLoop wodge word_buffer n buf_ptr i rem (i + k0) = .ok r ∧ r ≤ i + n ∧
      (r = i + n ↔ ∀ k, k0 ≤ k → k < n → slotMatch wodge word_buffer n buf_ptr i k = true) := by
  intro rem
  induction rem with
  | zero =>
    intro k0 h
    refine ⟨i + k0, by simp [matchLoop], by omega, ?_⟩
    constructor
    · intro _ k h1 h2; omega
    · intro _; omega
  | succ rem ih =>
    intro k0 h
    have hn : 0 < n := by omega
    have hslot : (buf_ptr + k0) % n < word_buffer.length := by
      rw [hwb]; exact Nat.mod_lt _ hn
    have hidx : buf_ptr + (i + k0) - i = buf_ptr + k0 := by omega
    obtain ⟨b, hb, hw⟩ := word_of_lt wodge (show i + k0 < wodge.num_words by omega)
    have ha : word_buffer[(buf_ptr + k0) % n]? = some word_buffer[(buf_ptr + k0) % n] :=
      List.getElem?_eq_getElem hslot
    have hsm : slotMatch wodge word_buffer n buf_ptr i k0 =
        (strcasecmp word_buffer[(buf_ptr + k0) % n] b == 0) := by
      simp [slotMatch, ha, hb]
    by_cases hc : strcasecmp word_buffer[(buf_ptr + k0) % n] b = 0
    · obtain ⟨r, hr, h1, h2⟩ := ih (k0 + 1) (by omega)
      refine ⟨r, ?_, h1, ?_⟩
      · simp only [matchLoop, hidx, rd_of_getElem? ha, hw, ok_bind, hc, ne_eq,
          not_true_eq_false, if_false]
        exact hr
      · rw [h2]
        constructor
        · intro hall k hk1 hk2
          rcases Nat.eq_or_lt_of_le hk1 with rfl | hlt
          · rw [hsm]; simpa using hc
          · exact hall k hlt hk2
        · intro hall k hk1 hk2
          exact hall k (by omega) hk2
    · refine ⟨i + k0, ?_, by omega, ?_⟩
      · simp [matchLoop, hidx, rd_of_getElem? ha, hw, hc]
      · constructor
        · intro h1; omega
        · intro hall
          have := hall k0 (le_refl _) (by omega)
          rw [hsm] at this
          exact absurd (by simpa using this) hc

theorem windowMatch_iff (wodge : WODGE) (word_buffer : List Word) (n buf_ptr i : Nat) :
    windowMatch wodge word_buffer n buf_ptr i = true ↔
      ∀ k, k < n → slotMatch wodge word_buffer n buf_ptr i k = true := by
  simp [windowMatch, List.all_eq_true]

theorem searchLoop_spec (wodge : WODGE) (word_buffer : List Word) (n buf_ptr : Nat)
    (hwb : word_buffer.length = n) :
    ∀ (rem i : Nat) (found : List Nat),
    (∀ m, i ≤ m → m < i + rem → m + n ≤ wodge.num_words) →
    searchLoop wodge word_buffer n buf_ptr rem i found =
      .ok (found ++ (List.range' i rem).filter (windowMatch wodge word_buffer n buf_ptr)) := by
  intro rem
  induction rem with
  | zero => intro i found _; simp [searchLoop]
  | succ rem ih =>
    intro i found h
    obtain ⟨r, hr, _, h2⟩ :=
      matchLoop_spec wodge word_buffer n buf_ptr i hwb (h i (le_refl _) (by omega)) n 0
        (by omega)
    have h3 : r = i + n ↔ windowMatch wodge word_buffer n buf_ptr i = true := by
      rw [h2, windowMatch_iff]
      constructor
      · intro hall k hk; exact hall k (Nat.zero_le _) hk
      · intro hall k _ hk; exact hall k hk
    simp only [Nat.add_zero] at hr
    simp only [searchLoop, hr, ok_bind]
    rw [ih (i + 1) _ (fun m h1 h2 => h m (by omega) (by omega)), List.range'_succ,
      List.filter_cons]
    by_cases hm : windowMatch wodge word_buffer n buf_ptr i = true
    · simp [h3.mpr hm, hm]
    · have : r ≠ i + n := fun h => hm (h3.mp h)
      simp [this, hm]

theorem search_spec (wodge : WODGE) (word_buffer : List Word) (n buf_ptr : Nat)
    (hwb : word_buffer.length = n) :
    search wodge word_buffer n buf_ptr =
      .ok ((List.range (wodge.num_words + 1 - n)).filter
        (windowMatch wodge word_buffer n buf_ptr)) := by
  unfold search
  rw [searchLoop_spec wodge word_buffer n buf_ptr hwb _ 0 [] (fun m _ h => by omega),
    List.range_eq_range']
  simp

theorem mem_search_le (wodge : WODGE) (word_buffer : List Word) (n buf_ptr : Nat)
    (hwb : word_buffer.length = n) (hnw : n ≤ wodge.num_words) {found : List Nat}
    (h : search wodge word_buffer n buf_ptr = .ok found) {m : Nat} (hm : m ∈ found) :
    m + n ≤ wodge.num_words ∧ windowMatch wodge word_buffer n buf_ptr m = true := by
  rw [search_spec wodge word_buffer n buf_ptr hwb] at h
  cases h
  simp only [List.mem_filter, List.mem_range] at hm
  exact ⟨by omega, hm.2⟩

/-! ## strcasecmp -/

theorem strcasecmp_eq_zero_iff : ∀ (a b : Word),
    strcasecmp a b = 0 ↔ a.map tolower = b.map tolower
  | [], [] => by simp [strcasecmp]
  | [], b :: bs => by
    simp only [strcasecmp, List.map_nil, List.map_cons]
    constructor
    · intro h; omega
    · intro h; cases h
  | a :: as, [] => by
    simp only [strcasecmp, List.map_nil, List.map_cons]
    constructor
    · intro h; omega
    · intro h; cases h
  | a :: as, b :: bs => by
    simp only [strcasecmp, List.map_cons, List.cons.injEq]
    by_cases h : tolower a = tolower b
    · simp only [h, if_true, true_and]
      exact strcasecmp_eq_zero_iff as bs
    · simp only [h, if_false, false_and, iff_false]
      intro h2
      apply h
      apply Fin.ext
      omega

theorem slotMatch_iff (wodge : WODGE) (word_buffer : List Word) (n buf_ptr i k : Nat) :
    slotMatch wodge word_buffer n buf_ptr i k = true ↔
      ∃ a b, word_buffer[(buf_ptr + k) % n]? = some a ∧ wodge.tokens[i + k]? = some b ∧
        a.map tolower = b.map tolower := by
  unfold slotMatch
  cases h1 : word_buffer[(buf_ptr + k) % n]? with
  | none => simp
  | some a =>
    cases h2 : wodge.tokens[i + k]? with
    | none => simp
    | some b => simp [strcasecmp_eq_zero_iff]

theorem mem_search_iff (wodge : WODGE) (word_buffer : List Word) (n buf_ptr : Nat)
    (hnw : n ≤ wodge.num_words) (hwb : word_buffer.length = n) (i : Nat) :
    i ∈ (List.range (wodge.num_words + 1 - n)).filter
        (windowMatch wodge word_buffer n buf_ptr) ↔
      (i ≤ wodge.num_words - n ∧ ∀ k, k < n →
        ∃ a b, word_buffer[(buf_ptr + k) % n]? = some a ∧ wodge.tokens[i + k]? = some b ∧
          a.map tolower = b.map tolower) := by
  simp only [List.mem_filter, List.mem_range, windowMatch_iff, slotMatch_iff]
  constructor
  · rintro ⟨h1, h2⟩; exact ⟨by omega, h2⟩
  · rintro ⟨h1, h2⟩; exact ⟨by omega, h2⟩

/-- C4: for every corpus with `num_words >= n` and every window of `n` cells with
any cursor, the search loop returns, in ascending order and without duplicates,
exactly the start indices `i <= num_words - n` such that for every `k < n` the
word `word_buffer[(buf_ptr + k) % n]` equals the corpus word `i + k` ignoring
ASCII case. -/
theorem search_yields_matching_starts (wodge : WODGE) (word_buffer : List Word)
    (n buf_ptr : Nat) (hnw : n ≤ wodge.num_words) (hwb : word_buffer.length = n) :
    ∃ found, search wodge word_buffer n buf_ptr = .ok found ∧
      found.Pairwise (fun x y => x < y) ∧
      ∀ i, i ∈ found ↔
        (i ≤ wodge.num_words - n ∧ ∀ k, k < n →
          ∃ a b, word_buffer[(buf_ptr + k) % n]? = some a ∧
            wodge.tokens[i + k]? = some b ∧ a.map tolower = b.map tolower) := by
  refine ⟨_, search_spec wodge word_buffer n buf_ptr hwb, ?_, ?_⟩
  · exact (List.pairwise_lt_range _).filter _
  · exact mem_search_iff wodge word_buffer n buf_ptr hnw hwb

/-- C4, witness: in the 9-token corpus `the cat sat on the mat the cat ran` with
`n = 2`, the window `the cat` is found at 0 and 6 and the window `cat ran` at 7
(also when it is stored rotated, as `ran cat` with the cursor at 1). -/
theorem search_yields_matching_starts_witness :
    (2 ≤ catWodge.num_words ∧ [bytes "the", bytes "cat"].length = 2) ∧
    search catWodge [bytes "the", bytes "cat"] 2 0 = .ok [0, 6] ∧
    search catWodge [bytes "cat", bytes "ran"] 2 0 = .ok [7] ∧
    search catWodge [bytes "ran", bytes "cat"] 2 1 = .ok [7] ∧
    ∃ found, search catWodge [bytes "the", bytes "cat"] 2 0 = .ok found ∧
      found.Pairwise (fun x y => x < y) ∧
      ∀ i, i ∈ found ↔
        (i ≤ catWodge.num_words - 2 ∧ ∀ k, k < 2 →
          ∃ a b, [bytes "the", bytes "cat"][(0 + k) % 2]? = some a ∧
            catWodge.tokens[i + k]? = some b ∧ a.map tolower = b.map tolower) :=
  ⟨by decide, by decide, by decide, by decide,
    search_yields_matching_starts catWodge [bytes "the", bytes "cat"] 2 0
      (by decide) (by decide)⟩

theorem window_eq_iff (wodge : WODGE) (word_buffer : List Word) (n buf_ptr i : Nat)
    (hi : i + n ≤ wodge.num_words) (hwb : word_buffer.length = n) :
    (∀ k, k < n → ∃ a b, word_buffer[(buf_ptr + k) % n]? = some a ∧
        wodge.tokens[i + k]? = some b ∧ a.map tolower = b.map tolower) ↔
      ((wodge.tokens.drop i).take n).map (List.map tolower) =
        (word_buffer.rotate buf_ptr).map (List.map tolower) := by
  have hlen := tokens_length wodge
  have hL : ∀ k, k < n → (((wodge.tokens.drop i).take n).map (List.map tolower))[k]? =
      (wodge.tokens[i + k]?).map (List.map tolower) := by
    intro k hk
    rw [List.getElem?_map, List.getElem?_take_of_lt hk, List.getElem?_drop]
  have hR : ∀ k, k < n → ((word_buffer.rotate buf_ptr).map (List.map tolower))[k]? =
      (word_buffer[(buf_ptr + k) % n]?).map (List.map tolower) := by
    intro k hk
    rw [List.getElem?_map, List.getElem?_rotate (by omega), hwb, Nat.add_comm]
  constructor
  · intro h
    apply List.ext_getElem?
    intro k
    by_cases hk : k < n
    · obtain ⟨a, b, ha, hb, hab⟩ := h k hk
      rw [hL k hk, hR k hk, ha, hb]
      simp [hab]
    · rw [List.getElem?_eq_none (by simp; omega), List.getElem?_eq_none (by simp; omega)]
  · intro h k hk
    have hk1 : (buf_ptr + k) % n < word_buffer.length := by
      rw [hwb]; exact Nat.mod_lt _ (by omega)
    have hk2 : i + k < wodge.tokens.length := by omega
    refine ⟨_, _, List.getElem?_eq_getElem hk1, List.getElem?_eq_getElem hk2, ?_⟩
    have := congrArg (fun l => l[k]?) h
    simp only [hL k hk, hR k hk, List.getElem?_eq_getElem hk1,
      List.getElem?_eq_getElem hk2, Option.map_some', Option.some.injEq] at this
    exact this.symm

/-- C5 (amended): the match set computed by the search of `disassociated_press`
is exactly the set of start indices `i` in the closed range `[0, num_words - n]`
such that the `n` corpus words beginning at `i` equal the window contents, read
in order from the cursor, case-insensitively. -/
theorem match_set_eq_window_occurrences (wodge : WODGE) (word_buffer : List Word)
    (n buf_ptr : Nat) (hnw : n ≤ wodge.num_words) (hwb : word_buffer.length = n) :
    ∃ found, search wodge word_buffer n buf_ptr = .ok found ∧
      ∀ i, i ∈ found ↔
        (i ≤ wodge.num_words - n ∧
          ((wodge.tokens.drop i).take n).map (List.map tolower) =
            (word_buffer.rotate buf_ptr).map (List.map tolower)) := by
  refine ⟨_, search_spec wodge word_buffer n buf_ptr hwb, ?_⟩
  intro i
  rw [mem_search_iff wodge word_buffer n buf_ptr hnw hwb]
  constructor
  · rintro ⟨h1, h2⟩
    exact ⟨h1, (window_eq_iff wodge word_buffer n buf_ptr i (by omega) hwb).mp h2⟩
  · rintro ⟨h1, h2⟩
    exact ⟨h1, (window_eq_iff wodge word_buffer n buf_ptr i (by omega) hwb).mpr h2⟩

/-- C5, witness: the window `cat ran`, stored as `ran cat` with the cursor at 1,
in the 9-token corpus. -/
theorem match_set_eq_window_occurrences_witness :
    (2 ≤ catWodge.num_words ∧ [bytes "ran", bytes "cat"].length = 2) ∧
    ∃ found, search catWodge [bytes "ran", bytes "cat"] 2 1 = .ok found ∧
      ∀ i, i ∈ found ↔
        (i ≤ catWodge.num_words - 2 ∧
          ((catWodge.tokens.drop i).take 2).map (List.map tolower) =
            ([bytes "ran", bytes "cat"].rotate 1).map (List.map tolower)) :=
  ⟨by decide,
    match_set_eq_window_occurrences catWodge [bytes "ran", bytes "cat"] 2 1
      (by decide) (by decide)⟩

/-- C5, counterexample: in the 9-token corpus with `n = 2` the match set of the
window `cat ran` is `[7]`, and `7 = num_words - n` lies outside the half-open
range `[0, num_words - n)`. -/
theorem match_set_contains_last_start :
    search catWodge [bytes "cat", bytes "ran"] 2 0 = .ok [7] ∧
    ¬ (7 < catWodge.num_words - 2) ∧
    ((catWodge.tokens.drop 7).take 2).map (List.map tolower) =
      [bytes "cat", bytes "ran"].map (List.map tolower) := by
  decide

/-! ## disassociated_press: choosing the next index -/

theorem pick_spec (wodge : WODGE) (found : List Nat) (n r : Nat) (hne : found ≠ [])
    (hnw : 0 < wodge.num_words) :
    ∃ m, m ∈ found ∧ pick wodge found n r = .ok ((m + n) % wodge.num_words) := by
  have hlen : 0 < found.length := List.length_pos.mpr hne
  have hk : r % found.length < found.length := Nat.mod_lt _ hlen
  refine ⟨found[r % found.length], List.getElem_mem _, ?_⟩
  simp [pick, cmod_pos hlen, rd_of_getElem? (List.getElem?_eq_getElem hk), cmod_pos hnw]

theorem rejectLoop_spec (wodge : WODGE) (rand : Nat → Nat) (found : List Nat)
    (n oldindex : Nat) (hne : found ≠ []) (hnw : 0 < wodge.num_words) :
    ∀ (fuel rng : Nat),
    rejectLoop wodge rand found n oldindex fuel rng = .error .outOfFuel ∨
    ∃ index rng2 m, rejectLoop wodge rand found n oldindex fuel rng = .ok (index, rng2) ∧
      m ∈ found ∧ index = (m + n) % wodge.num_words ∧ rng < rng2 ∧
      (found.length > 1 → index ≠ oldindex + 1) := by
  intro fuel
  induction fuel with
  | zero => intro rng; left; rfl
  | succ fuel ih =>
    intro rng
    obtain ⟨m, hm, hp⟩ := pick_spec wodge found n (rand rng) hne hnw
    by_cases hc : found.length > 1 ∧ (m + n) % wodge.num_words = oldindex + 1
    · rcases ih (rng + 1) with h | ⟨index, rng2, m2, h1, h2, h3, h4, h5⟩
      · left
        simp [rejectLoop, hp, hc, h]
      · right
        refine ⟨index, rng2, m2, ?_, h2, h3, by omega, h5⟩
        simp [rejectLoop, hp, hc, h1]
    · right
      refine ⟨_, rng + 1, m, ?_, hm, rfl, by omega, ?_⟩
      · simp only [rejectLoop, hp, ok_bind, pure_eq_ok]
        rw [if_neg hc]
      · intro h1 h2
        exact hc ⟨h1, h2⟩

theorem select_spec (wodge : WODGE) (rand : Nat → Nat) (found : List Nat)
    (n oldindex : Nat) (avoid_normality : Bool) (fuel rng : Nat) (hne : found ≠ [])
    (hnw : 0 < wodge.num_words) :
    (avoid_normality = true ∧
      select wodge rand found n oldindex avoid_normality fuel rng = .error .outOfFuel) ∨
    ∃ index rng2 m,
      select wodge rand found n oldindex avoid_normality fuel rng = .ok (index, rng2) ∧
      m ∈ found ∧ index = (m + n) % wodge.num_words ∧ rng < rng2 ∧
      (avoid_normality = true → found.length > 1 → index ≠ oldindex + 1) := by
  cases avoid_normality with
  | true =>
    rcases rejectLoop_spec wodge rand found n oldindex hne hnw fuel rng with
      h | ⟨index, rng2, m, h1, h2, h3, h4, h5⟩
    · left; exact ⟨rfl, by simpa [select] using h⟩
    · right; exact ⟨index, rng2, m, by simpa [select] using h1, h2, h3, h4, fun _ => h5⟩
  | false =>
    obtain ⟨m, hm, hp⟩ := pick_spec wodge found n (rand rng) hne hnw
    right
    exact ⟨_, rng + 1, m, by simp [select, hp], hm, rfl, by omega, by simp⟩

/-! ## disassociated_press: one pass of the main loop -/

theorem iteration_restart (wodge : WODGE) (n : Nat) (avoid_normality show_boundaries : Bool)
    (rand : Nat → Nat) (fuel : Nat) (st : GenState) (hnw : n ≤ wodge.num_words)
    (hs : search wodge st.word_buffer n st.buf_ptr = .ok []) :
    iteration wodge n avoid_normality show_boundaries rand fuel st =
      .ok { word_buffer :=
              (wodge.tokens.drop (rand st.rng % (wodge.num_words + 1 - n))).take n,
            buf_ptr := 0,
            index := rand st.rng % (wodge.num_words + 1 - n),
            rng := st.rng + 1,
            out := st.out ++ List.zipWith Item.seed
              (List.range' (rand st.rng % (wodge.num_words + 1 - n)) n)
              ((wodge.tokens.drop (rand st.rng % (wodge.num_words + 1 - n))).take n),
            restarts := st.restarts + 1 } := by
  obtain ⟨h1, h2⟩ := seedIndex_spec hnw (rand st.rng)
  have h3 := fillLoop_spec wodge (rand st.rng % (wodge.num_words + 1 - n)) n 0 [] st.out
    (by omega)
  simp only [Nat.add_zero, List.nil_append] at h3
  simp [iteration, hs, h1, h3]

theorem iteration_step (wodge : WODGE) (n : Nat) (avoid_normality show_boundaries : Bool)
    (rand : Nat → Nat) (fuel : Nat) (st : GenState) (hn : 1 ≤ n)
    (hbp : st.buf_ptr < st.word_buffer.length) {found : List Nat}
    (hs : search wodge st.word_buffer n st.buf_ptr = .ok found) (hne : found ≠ [])
    {index rng2 : Nat}
    (hsel : select wodge rand found n st.index avoid_normality fuel st.rng = .ok (index, rng2))
    {t : Word} (ht : wodge.tokens[index]? = some t) :
    iteration wodge n avoid_normality show_boundaries rand fuel st =
      .ok { word_buffer := st.word_buffer.set st.buf_ptr t,
            buf_ptr := (st.buf_ptr + 1) % n,
            index := index,
            rng := rng2,
            out := (if show_boundaries = true ∧ index ≠ st.index + 1
                    then st.out ++ [Item.marker] else st.out) ++ [Item.step index t],
            restarts := st.restarts } := by
  have hlen : found.length ≠ 0 := fun h => hne (List.length_eq_zero.mp h)
  have hw : wodge.word index = .ok t := (word_eq_ok_iff wodge).mpr ht
  simp only [iteration, hs, ok_bind, hlen, if_false, hsel, hw, hbp, if_true,
    cmod_pos (show 0 < n by omega), pure_eq_ok]

theorem iteration_out_of_fuel (wodge : WODGE) (n : Nat)
    (avoid_normality show_boundaries : Bool)
    (rand : Nat → Nat) (fuel : Nat) (st : GenState) {found : List Nat}
    (hs : search wodge st.word_buffer n st.buf_ptr = .ok found) (hne : found ≠ [])
    {e : Fault}
    (hsel : select wodge rand found n st.index avoid_normality fuel st.rng = .error e) :
    iteration wodge n avoid_normality show_boundaries rand fuel st = .error e := by
  have hlen : found.length ≠ 0 := fun h => hne (List.length_eq_zero.mp h)
  simp only [iteration, hs, ok_bind, hlen, if_false, hsel, error_bind]

theorem seeds_valid (wodge : WODGE) (index n : Nat) (h : index + n ≤ wodge.num_words) :
    (List.zipWith Item.seed (List.range' index n)
      ((wodge.tokens.drop index).take n)).length = n ∧
    ∀ it ∈ List.zipWith Item.seed (List.range' index n) ((wodge.tokens.drop index).take n),
      ∃ j t, it = Item.seed j t ∧ wodge.tokens[j]? = some t := by
  have h1 := fillLoop_spec wodge index n 0 [] [] (by omega)
  obtain ⟨seeds, h2, h3, h4⟩ := fillLoop_out wodge index n 0 [] [] _ h1
  simp only [Nat.add_zero, List.nil_append] at h2
  rw [h2]
  exact ⟨h3, h4⟩

theorem stepCount_append (a b : List Item) : stepCount (a ++ b) = stepCount a + stepCount b := by
  simp [stepCount]

theorem stepCount_seeds (seeds : List Item) (h : ∀ it ∈ seeds, ∃ j t, it = Item.seed j t) :
    stepCount seeds = 0 := by
  unfold stepCount
  rw [List.length_eq_zero, List.filter_eq_nil_iff]
  intro it hit
  obtain ⟨j, t, rfl⟩ := h it hit
  simp

theorem seedCount_append (a b : List Item) : seedCount (a ++ b) = seedCount a + seedCount b := by
  simp [seedCount]

theorem seedCount_seeds (seeds : List Item) (h : ∀ it ∈ seeds, ∃ j t, it = Item.seed j t) :
    seedCount seeds = seeds.length := by
  unfold seedCount
  rw [List.filter_eq_self.mpr]
  intro it hit
  obtain ⟨j, t, rfl⟩ := h it hit
  rfl

/-- One pass of the main loop from a state whose window has `n` cells: it is a
restart, or a normal step, or (only with `avoid_normality`) the rejection loop
does not exit within the fuel. The reads of the pass are all in range. -/
theorem iteration_cases (wodge : WODGE) (n : Nat) (avoid_normality show_boundaries : Bool)
    (rand : Nat → Nat) (fuel : Nat) (st : GenState) (hn : 1 ≤ n) (hnw : n ≤ wodge.num_words)
    (hwb : st.word_buffer.length = n) (hbp : st.buf_ptr < n) :
    ∃ found, search wodge st.word_buffer n st.buf_ptr = .ok found ∧
      ((found = [] ∧ ∃ st2 seeds,
          iteration wodge n avoid_normality show_boundaries rand fuel st = .ok st2 ∧
          (st2.word_buffer.length = n ∧ st2.buf_ptr < n ∧ st2.index < wodge.num_words ∧
            ((∀ it ∈ st.out, it.valid wodge) → ∀ it ∈ st2.out, it.valid wodge)) ∧
          st2.restarts = st.restarts + 1 ∧
          st2.out = st.out ++ seeds ∧ seeds.length = n ∧
          (∀ it ∈ seeds, ∃ j t, it = Item.seed j t) ∧
          st2.index = rand st.rng % (wodge.num_words + 1 - n) ∧
          st2.index + n ≤ wodge.num_words ∧ st2.buf_ptr = 0 ∧
          st2.word_buffer = (wodge.tokens.drop st2.index).take n ∧ st2.rng = st.rng + 1) ∨
       (found ≠ [] ∧ avoid_normality = true ∧
          iteration wodge n avoid_normality show_boundaries rand fuel st =
            .error .outOfFuel) ∨
       (found ≠ [] ∧ ∃ st2 m t,
          iteration wodge n avoid_normality show_boundaries rand fuel st = .ok st2 ∧
          (st2.word_buffer.length = n ∧ st2.buf_ptr < n ∧ st2.index < wodge.num_words ∧
            ((∀ it ∈ st.out, it.valid wodge) → ∀ it ∈ st2.out, it.valid wodge)) ∧
          st2.restarts = st.restarts ∧
          m ∈ found ∧ st2.index = (m + n) % wodge.num_words ∧
          wodge.tokens[st2.index]? = some t ∧
          st2.out = (if show_boundaries = true ∧ st2.index ≠ st.index + 1
                     then st.out ++ [Item.marker] else st.out) ++ [Item.step st2.index t] ∧
          st2.word_buffer = st.word_buffer.set st.buf_ptr t ∧
          st2.buf_ptr = (st.buf_ptr + 1) % n ∧ st.rng < st2.rng ∧
          (avoid_normality = true → found.length > 1 → st2.index ≠ st.index + 1))) := by
  have hs := search_spec wodge st.word_buffer n st.buf_ptr hwb
  refine ⟨_, hs, ?_⟩
  generalize (List.range (wodge.num_words + 1 - n)).filter
    (windowMatch wodge st.word_buffer n st.buf_ptr) = found at hs
  have hpos : 0 < wodge.num_words := by omega
  by_cases hf : found = []
  · left
    subst hf
    have hit := iteration_restart wodge n avoid_normality show_boundaries rand fuel st hnw hs
    have hlt : rand st.rng % (wodge.num_words + 1 - n) + n ≤ wodge.num_words :=
      (seedIndex_spec hnw (rand st.rng)).2
    obtain ⟨hs1, hs2⟩ := seeds_valid wodge _ n hlt
    refine ⟨rfl, _, _, hit, ⟨?_, ?_, ?_, ?_⟩, rfl, rfl, hs1, ?_, rfl, hlt, rfl, rfl, rfl⟩
    · simp only [List.length_take, List.length_drop, tokens_length]
      omega
    · show 0 < n
      omega
    · show rand st.rng % (wodge.num_words + 1 - n) < wodge.num_words
      omega
    · intro hout it hit
      rcases List.mem_append.mp hit with h | h
      · exact hout it h
      · obtain ⟨j, t, rfl, hj⟩ := hs2 it h
        exact hj
    · intro it hit
      obtain ⟨j, t, h, _⟩ := hs2 it hit
      exact ⟨j, t, h⟩
  · right
    rcases select_spec wodge rand found n st.index avoid_normality fuel st.rng hf hpos with
      ⟨ha, he⟩ | ⟨index, rng2, m, hsel, hm, hi, hr, hav⟩
    · left
      exact ⟨hf, ha,
        iteration_out_of_fuel wodge n avoid_normality show_boundaries rand fuel st hs hf he⟩
    · right
      have hilt : index < wodge.num_words := by rw [hi]; exact Nat.mod_lt _ hpos
      obtain ⟨t, ht, _⟩ := word_of_lt wodge hilt
      have hit := iteration_step wodge n avoid_normality show_boundaries rand fuel st hn
        (by rw [hwb]; exact hbp) hs hf hsel ht
      refine ⟨hf, _, m, t, hit, ⟨?_, ?_, hilt, ?_⟩, rfl, hm, hi, ht, rfl, rfl, rfl, hr, hav⟩
      · simp [hwb]
      · exact Nat.mod_lt _ (by omega)
      · intro hout it hit
        rcases List.mem_append.mp hit with h | h
        · split at h
          · rcases List.mem_append.mp h with h | h
            · exact hout it h
            · rw [List.mem_singleton.mp h]; trivial
          · exact hout it h
        · rw [List.mem_singleton.mp h]; exact ht

theorem seeding_spec (wodge : WODGE) (n : Nat) (rand : Nat → Nat) (hn : 1 ≤ n)
    (hnw : n ≤ wodge.num_words) :
    ∃ st seeds, seeding wodge n rand = .ok st ∧ Inv wodge n st ∧ st.restarts = 0 ∧
      st.out = seeds ∧ seeds.length = n ∧ (∀ it ∈ seeds, ∃ j t, it = Item.seed j t) ∧
      st.index = rand 0 % (wodge.num_words + 1 - n) ∧ st.index + n ≤ wodge.num_words ∧
      st.buf_ptr = 0 ∧ st.word_buffer = (wodge.tokens.drop st.index).take n ∧ st.rng = 1 := by
  obtain ⟨h1, hlt⟩ := seedIndex_spec hnw (rand 0)
  have h3 := fillLoop_spec wodge (rand 0 % (wodge.num_words + 1 - n)) n 0 [] [] (by omega)
  simp only [Nat.add_zero, List.nil_append] at h3
  obtain ⟨hs1, hs2⟩ := seeds_valid wodge _ n hlt
  refine ⟨_, _, by simp [seeding, h1, h3]; rfl, ⟨?_, ?_, ?_, ?_⟩, rfl, rfl, hs1, ?_,
    rfl, hlt, rfl, rfl, rfl⟩
  · simp only [List.length_take, List.length_drop, tokens_length]
    omega
  · show 0 < n
    omega
  · show rand 0 % (wodge.num_words + 1 - n) < wodge.num_words
    omega
  · intro it hit
    obtain ⟨j, t, rfl, hj⟩ := hs2 it hit
    exact hj
  · intro it hit
    obtain ⟨j, t, h, _⟩ := hs2 it hit
    exact ⟨j, t, h⟩

theorem iteration_inv (wodge : WODGE) (n : Nat) (avoid_normality show_boundaries : Bool)
    (rand : Nat → Nat) (fuel : Nat) (st : GenState) (hn : 1 ≤ n) (hnw : n ≤ wodge.num_words)
    (hinv : Inv wodge n st) :
    (avoid_normality = true ∧
      iteration wodge n avoid_normality show_boundaries rand fuel st = .error .outOfFuel) ∨
    ∃ st2, iteration wodge n avoid_normality show_boundaries rand fuel st = .ok st2 ∧
      Inv wodge n st2 ∧
      stepCount st2.out + st2.restarts = stepCount st.out + st.restarts + 1 ∧
      seedCount st2.out + n * st.restarts = seedCount st.out + n * st2.restarts := by
  obtain ⟨found, _, h⟩ := iteration_cases wodge n avoid_normality show_boundaries rand fuel st
    hn hnw hinv.wb_len hinv.bp_lt
  rcases h with ⟨_, st2, seeds, h1, ⟨i1, i2, i3, i4⟩, h2, h3, h4, h5, _⟩ |
    ⟨_, h1, h2⟩ | ⟨_, st2, m, t, h1, ⟨i1, i2, i3, i4⟩, h2, _, _, _, h3, _⟩
  · right
    refine ⟨st2, h1, ⟨i1, i2, i3, i4 hinv.out_valid⟩, ?_, ?_⟩
    · rw [h3, stepCount_append, stepCount_seeds seeds h5, h2]; omega
    · rw [h3, seedCount_append, seedCount_seeds seeds h5, h2, h4, Nat.mul_add]; omega
  · left; exact ⟨h1, h2⟩
  · right
    refine ⟨st2, h1, ⟨i1, i2, i3, i4 hinv.out_valid⟩, ?_, ?_⟩
    · rw [h3, h2, stepCount_append]
      split <;> simp [stepCount] <;> omega
    · rw [h3, h2, seedCount_append]
      split <;> simp [seedCount]

theorem mainLoop_spec (wodge : WODGE) (n : Nat) (avoid_normality show_boundaries : Bool)
    (rand : Nat → Nat) (fuel : Nat) (hn : 1 ≤ n) (hnw : n ≤ wodge.num_words) :
    ∀ (length : Nat) (st : GenState), Inv wodge n st →
    (avoid_normality = true ∧
      mainLoop wodge n avoid_normality show_boundaries rand fuel length st =
        .error .outOfFuel) ∨
    ∃ st2, mainLoop wodge n avoid_normality show_boundaries rand fuel length st = .ok st2 ∧
      Inv wodge n st2 ∧
      stepCount st2.out + st2.restarts = stepCount st.out + st.restarts + length ∧
      seedCount st2.out + n * st.restarts = seedCount st.out + n * st2.restarts := by
  intro length
  induction length with
  | zero => intro st hinv; right; exact ⟨st, rfl, hinv, rfl, rfl⟩
  | succ length ih =>
    intro st hinv
    rcases iteration_inv wodge n avoid_normality show_boundaries rand fuel st hn hnw hinv with
      ⟨h1, h2⟩ | ⟨st1, h1, h2, h3, h4⟩
    · left; exact ⟨h1, by simp [mainLoop, h2]⟩
    · rcases ih st1 h2 with ⟨h5, h6⟩ | ⟨st2, h5, h6, h7, h8⟩
      · left; exact ⟨h5, by simp [mainLoop, h1, h6]⟩
      · right
        exact ⟨st2, by simp [mainLoop, h1, h5], h6, by omega, by omega⟩

theorem disassociated_press_spec (wodge : WODGE) (n length : Nat)
    (avoid_normality show_boundaries : Bool) (rand : Nat → Nat) (fuel : Nat)
    (hn : 1 ≤ n) (hnw : n ≤ wodge.num_words) :
    (avoid_normality = true ∧
      disassociated_press wodge n length avoid_normality show_boundaries rand fuel =
        .error .outOfFuel) ∨
    ∃ st, disassociated_press wodge n length avoid_normality show_boundaries rand fuel =
        .ok st ∧
      Inv wodge n st ∧ stepCount st.out + st.restarts = length ∧
      seedCount st.out = n * (st.restarts + 1) := by
  obtain ⟨st0, seeds, h0, hinv, hr, hout, hlen, hseeds, _⟩ := seeding_spec wodge n rand hn hnw
  rcases mainLoop_spec wodge n avoid_normality show_boundaries rand fuel hn hnw length st0 hinv
    with ⟨h1, h2⟩ | ⟨st, h1, h2, h3, h4⟩
  · left; exact ⟨h1, by simp [disassociated_press, h0, h2]⟩
  · right
    refine ⟨st, by simp [disassociated_press, h0, h1], h2, ?_, ?_⟩
    · rw [h3, hout, stepCount_seeds seeds hseeds, hr]; omega
    · rw [hout, seedCount_seeds seeds hseeds, hr, hlen] at h4
      rw [Nat.mul_add]; omega

/-! ## disassociated_press: the claims -/

/-- C2 (amended): for every corpus with `num_words >= n >= 1`, every `length` and
every stream of draws, `disassociated_press` makes exactly `length` passes
through its main loop, each a successful emission step or an empty-match
restart, so the number of emission steps is `length` minus the number of
restarts: a restart re-seeds, emits `n` warm-up words and consumes one unit of
the length budget. Without `avoid_normality` the function always returns; with
it, it returns unless a rejection loop does not exit within the fuel. -/
theorem iterations_are_steps_or_restarts (wodge : WODGE) (n length : Nat)
    (avoid_normality show_boundaries : Bool) (rand : Nat → Nat) (fuel : Nat)
    (hn : 1 ≤ n) (hnw : n ≤ wodge.num_words) :
    (avoid_normality = false →
      ∃ st, disassociated_press wodge n length avoid_normality show_boundaries rand fuel =
        .ok st) ∧
    ∀ st, disassociated_press wodge n length avoid_normality show_boundaries rand fuel =
        .ok st →
      stepCount st.out + st.restarts = length ∧
      seedCount st.out = n * (st.restarts + 1) := by
  rcases disassociated_press_spec wodge n length avoid_normality show_boundaries rand fuel
    hn hnw with ⟨h1, h2⟩ | ⟨st, h1, _, h3, h4⟩
  · refine ⟨fun h => ?_, fun st h => ?_⟩
    · rw [h1] at h; cases h
    · rw [h2] at h; cases h
  · refine ⟨fun _ => ⟨st, h1⟩, fun st2 h => ?_⟩
    rw [h1] at h
    cases h
    exact ⟨h3, h4⟩

/-- C2, witness: the corpus `a b` with `n = 2` and `length = 2`. -/
theorem iterations_are_steps_or_restarts_witness :
    (1 ≤ 2 ∧ 2 ≤ abWodge.num_words) ∧
    ((false = false →
      ∃ st, disassociated_press abWodge 2 2 false false (fun _ => 0) 0 = .ok st) ∧
    ∀ st, disassociated_press abWodge 2 2 false false (fun _ => 0) 0 = .ok st →
      stepCount st.out + st.restarts = 2 ∧
      seedCount st.out = 2 * (st.restarts + 1)) :=
  ⟨by decide,
    iterations_are_steps_or_restarts abWodge 2 2 false false (fun _ => 0) 0
      (by decide) (by decide)⟩

/-- C2, counterexample: on the corpus `a b` with `n = 2` and `length = 2` the
first pass emits `a` (wrapping to index 0), the second pass finds no match for
the window `b a` and restarts; the loop ends after these two passes with one
emission step, not two. -/
theorem restart_consumes_length_budget :
    (2 ≤ abWodge.num_words) ∧
    (disassociated_press abWodge 2 2 false false (fun _ => 0) 0).map
        (fun st => (st.out, st.restarts)) =
      .ok ([Item.seed 0 (bytes "a"), Item.seed 1 (bytes "b"), Item.step 0 (bytes "a"),
            Item.seed 0 (bytes "a"), Item.seed 1 (bytes "b")], 1) ∧
    (disassociated_press abWodge 2 2 false false (fun _ => 0) 0).map
        (fun st => stepCount st.out) ≠ .ok 2 := by
  decide

/-- C3, at the failing input: on the corpus `a b c` with `n = 2`, `length = 1` and
`show_boundaries`, the seeding prints `a b` and the only step prints `c`, the
corpus word at index 2 that follows the word `b` at index 1 printed just before
it; the marker is printed before `c` all the same, because `oldindex` is the start
index 0 of the seeding and `2 != 0 + 1`. -/
theorem marker_after_seeding_without_jump :
    (disassociated_press abcWodge 2 1 false true (fun _ => 0) 0).map (fun st => st.out) =
      .ok [Item.seed 0 (bytes "a"), Item.seed 1 (bytes "b"), Item.marker,
           Item.step 2 (bytes "c")] := by
  decide

/-- C6: in every pass of the main loop that finds a non-empty match set, on a
corpus with `num_words >= n >= 1` and a window of `n` cells, the word emitted is
the corpus word at index `(m + n) % num_words` for some `m` of the match set;
that index is `m + n` when `m < num_words - n` and `0` when `m = num_words - n`.
Without `avoid_normality` the pass always completes. -/
theorem step_emits_word_after_match (wodge : WODGE) (n : Nat)
    (avoid_normality show_boundaries : Bool) (rand : Nat → Nat) (fuel : Nat) (st : GenState)
    (hn : 1 ≤ n) (hnw : n ≤ wodge.num_words)
    (hwb : st.word_buffer.length = n) (hbp : st.buf_ptr < n) (found : List Nat)
    (hs : search wodge st.word_buffer n st.buf_ptr = .ok found) (hne : found ≠ []) :
    (avoid_normality = false →
      ∃ st2, iteration wodge n avoid_normality show_boundaries rand fuel st = .ok st2) ∧
    ∀ st2, iteration wodge n avoid_normality show_boundaries rand fuel st = .ok st2 →
      ∃ m t, m ∈ found ∧ m ≤ wodge.num_words - n ∧
        st2.index = (m + n) % wodge.num_words ∧
        wodge.tokens[st2.index]? = some t ∧
        st2.out.getLast? = some (Item.step st2.index t) ∧
        (m < wodge.num_words - n → st2.index = m + n) ∧
        (m = wodge.num_words - n → st2.index = 0) := by
  obtain ⟨found2, hs2, h⟩ := iteration_cases wodge n avoid_normality show_boundaries rand
    fuel st hn hnw hwb hbp
  rw [hs] at hs2
  cases hs2
  rcases h with ⟨h1, _⟩ | ⟨_, h1, h2⟩ | ⟨_, st2, m, t, h1, _, _, h2, h3, h4, h5, _⟩
  · exact absurd h1 hne
  · refine ⟨fun h => ?_, fun st2 h => ?_⟩
    · rw [h1] at h; cases h
    · rw [h2] at h; cases h
  · refine ⟨fun _ => ⟨st2, h1⟩, fun st3 h => ?_⟩
    rw [h1] at h
    cases h
    have hm := (mem_search_le wodge st.word_buffer n st.buf_ptr hwb hnw hs h2).1
    refine ⟨m, t, h2, by omega, h3, h4, ?_, ?_, ?_⟩
    · rw [h5]; simp
    · intro hlt
      rw [h3]
      exact Nat.mod_eq_of_lt (by omega)
    · intro heq
      rw [h3, show m + n = wodge.num_words by omega]
      exact Nat.mod_self _

/-- C6, witness: in the 9-token corpus with `n = 2` the window `cat ran` has the
single match 7, the last valid start, and the step wraps to index 0, the word
`the`. -/
theorem step_emits_word_after_match_witness :
    (1 ≤ 2 ∧ 2 ≤ catWodge.num_words ∧ ranState.word_buffer.length = 2 ∧
      ranState.buf_ptr < 2 ∧
      search catWodge ranState.word_buffer 2 ranState.buf_ptr = .ok [7] ∧ [7] ≠ []) ∧
    ((iteration catWodge 2 false true (fun _ => 0) 0 ranState).map
        (fun st => (st.index, st.out)) =
      .ok (0, [Item.marker, Item.step 0 (bytes "the")])) ∧
    ((false = false →
      ∃ st2, iteration catWodge 2 false true (fun _ => 0) 0 ranState = .ok st2) ∧
    ∀ st2, iteration catWodge 2 false true (fun _ => 0) 0 ranState = .ok st2 →
      ∃ m t, m ∈ [7] ∧ m ≤ catWodge.num_words - 2 ∧
        st2.index = (m + 2) % catWodge.num_words ∧
        catWodge.tokens[st2.index]? = some t ∧
        st2.out.getLast? = some (Item.step st2.index t) ∧
        (m < catWodge.num_words - 2 → st2.index = m + 2) ∧
        (m = catWodge.num_words - 2 → st2.index = 0)) :=
  ⟨by decide, by decide,
    step_emits_word_after_match catWodge 2 false true (fun _ => 0) 0 ranState
      (by decide) (by decide) (by decide) (by decide) [7] (by decide) (by decide)⟩

/-- C7: with `avoid_normality`, in every pass of the main loop whose match set
has more than one element, the index on which the rejection loop exits is not
`oldindex + 1`, where `oldindex` is the value of `index` at the start of the
pass. -/
theorem avoid_normality_never_continues (wodge : WODGE) (n : Nat) (show_boundaries : Bool)
    (rand : Nat → Nat) (fuel : Nat) (st : GenState)
    (hn : 1 ≤ n) (hnw : n ≤ wodge.num_words)
    (hwb : st.word_buffer.length = n) (hbp : st.buf_ptr < n) (found : List Nat)
    (hs : search wodge st.word_buffer n st.buf_ptr = .ok found) (hmany : found.length > 1)
    (st2 : GenState)
    (hit : iteration wodge n true show_boundaries rand fuel st = .ok st2) :
    st2.index ≠ st.index + 1 := by
  obtain ⟨found2, hs2, h⟩ := iteration_cases wodge n true show_boundaries rand
    fuel st hn hnw hwb hbp
  rw [hs] at hs2
  cases hs2
  rcases h with ⟨h1, _⟩ | ⟨_, _, h2⟩ | ⟨_, st3, m, t, h1, _, _, _, _, _, _, _, _, _, h6⟩
  · rw [h1] at hmany; simp at hmany
  · rw [h2] at hit; cases hit
  · rw [h1] at hit
    cases hit
    exact h6 rfl hmany

/-- C7, witness: in the 9-token corpus with `n = 2`, from the state whose window
is `the cat` and whose position is 7, the match set is `[0, 6]`; the first draw
takes the match 6, whose next index 8 is `oldindex + 1` and is rejected, the
second draw takes the match 0 and the loop exits on index 2. -/
theorem avoid_normality_never_continues_witness :
    (1 ≤ 2 ∧ 2 ≤ catWodge.num_words ∧ catState.word_buffer.length = 2 ∧
      catState.buf_ptr < 2 ∧
      search catWodge catState.word_buffer 2 catState.buf_ptr = .ok [0, 6] ∧
      [0, 6].length > 1 ∧
      iteration catWodge 2 true false catDraws 2 catState = .ok catNext) ∧
    disassociated_press catWodge 2 1 true false catDraws 1 = .ok catState ∧
    catNext.index ≠ catState.index + 1 :=
  ⟨by decide, by decide,
    avoid_normality_never_continues catWodge 2 false catDraws 2 catState
      (by decide) (by decide) (by decide) (by decide) [0, 6] (by decide) (by decide)
      catNext (by decide)⟩

/-- C8: for every corpus with `num_words >= n >= 1`, every `length`, every flag
setting and every stream of draws, no read of the corpus word array or of the
window and no write of the window made by `disassociated_press` is out of range
(the checked reads and writes of the model never fault: the only way not to
return is a rejection loop that does not exit within the fuel, which needs
`avoid_normality`); on return the window has `n` cells, the cursor is below `n`,
the position is below `num_words`, and every item passed to `print_word` other
than the marker is byte for byte a corpus token. -/
theorem disassociated_press_reads_in_range (wodge : WODGE) (n length : Nat)
    (avoid_normality show_boundaries : Bool) (rand : Nat → Nat) (fuel : Nat)
    (hn : 1 ≤ n) (hnw : n ≤ wodge.num_words) :
    (avoid_normality = true ∧
      disassociated_press wodge n length avoid_normality show_boundaries rand fuel =
        .error .outOfFuel) ∨
    ∃ st, disassociated_press wodge n length avoid_normality show_boundaries rand fuel =
        .ok st ∧
      st.word_buffer.length = n ∧ st.buf_ptr < n ∧ st.index < wodge.num_words ∧
      ∀ it ∈ st.out, it = Item.marker ∨
        ∃ i, i < wodge.num_words ∧ wodge.tokens[i]? = some it.text := by
  rcases disassociated_press_spec wodge n length avoid_normality show_boundaries rand fuel
    hn hnw with h | ⟨st, h1, ⟨i1, i2, i3, i4⟩, _, _⟩
  · left; exact h
  · right
    refine ⟨st, h1, i1, i2, i3, ?_⟩
    intro it hit
    have hv := i4 it hit
    have hlt : ∀ (i : Nat) (t : Word), wodge.tokens[i]? = some t → i < wodge.num_words := by
      intro i t h
      rw [← tokens_length]
      exact (List.getElem?_eq_some_iff.mp h).1
    cases it with
    | seed i t => right; exact ⟨i, hlt i t hv, hv⟩
    | step i t => right; exact ⟨i, hlt i t hv, hv⟩
    | marker => left; rfl

/-- C8, witness: the 9-token corpus with `n = 2`, `length = 6`, both flags set. -/
theorem disassociated_press_reads_in_range_witness :
    (1 ≤ 2 ∧ 2 ≤ catWodge.num_words) ∧
    ((true = true ∧
      disassociated_press catWodge 2 6 true true catDraws 3 = .error .outOfFuel) ∨
    ∃ st, disassociated_press catWodge 2 6 true true catDraws 3 = .ok st ∧
      st.word_buffer.length = 2 ∧ st.buf_ptr < 2 ∧ st.index < catWodge.num_words ∧
      ∀ it ∈ st.out, it = Item.marker ∨
        ∃ i, i < catWodge.num_words ∧ catWodge.tokens[i]? = some it.text) :=
  ⟨by decide,
    disassociated_press_reads_in_range catWodge 2 6 true true catDraws 3
      (by decide) (by decide)⟩

/-- C10, at the failing inputs: for the 2-token corpus `a b` the check
`num_words < 1` of `main` passes; with `n = 3` `disassociated_press` then
evaluates `rand() % 0`, and with `n = 4` it evaluates `rand() % -1 = 0` and reads
`wodge->words[2]`, past the last token. Neither run is rejected with an error
before the generator starts. -/
theorem main_runs_generator_on_short_corpus :
    (get_words (bytes "a b")).map (fun w => decide (1 ≤ w.num_words ∧ w.num_words < 3)) =
      .ok true ∧
    main (bytes "a b") 3 1 false false (fun _ => 0) 0 = .error .divByZero ∧
    seedIndex 2 4 0 = .ok 0 ∧
    main (bytes "a b") 4 1 false false (fun _ => 0) 0 = .error .badRead := by
  decide

/-! ## The number of words emitted -/

theorem wordCount_eq (out : List Item) : wordCount out = seedCount out + stepCount out := by
  induction out with
  | nil => rfl
  | cons it out ih =>
    unfold wordCount seedCount stepCount at ih ⊢
    cases it <;> simp only [List.filter_cons, List.length_cons, if_true, if_false,
      Bool.false_eq_true] <;> omega

/-- C14: for every corpus with `num_words >= n >= 1`, every `length` and every
stream of draws for which `disassociated_press` returns (every rejection loop
exits within the fuel), the main loop makes exactly `length` passes, `R` of them
restarts and `length - R` normal steps, and the number of words passed to
`print_word`, markers excluded, is `n + R * n + (length - R)`. -/
theorem total_words_emitted (wodge : WODGE) (n length : Nat)
    (avoid_normality show_boundaries : Bool) (rand : Nat → Nat) (fuel : Nat)
    (hn : 1 ≤ n) (hnw : n ≤ wodge.num_words) (st : GenState)
    (h : disassociated_press wodge n length avoid_normality show_boundaries rand fuel =
      .ok st) :
    st.restarts ≤ length ∧ stepCount st.out = length - st.restarts ∧
    wordCount st.out = n + st.restarts * n + (length - st.restarts) := by
  rcases disassociated_press_spec wodge n length avoid_normality show_boundaries rand fuel
    hn hnw with ⟨_, h2⟩ | ⟨st2, h1, _, h3, h4⟩
  · rw [h2] at h; cases h
  · rw [h1] at h
    cases h
    refine ⟨by omega, by omega, ?_⟩
    rw [wordCount_eq, h4, Nat.mul_add, Nat.mul_comm n st.restarts]
    omega

/-- C14, witness: the 9-token corpus with `n = 2`, `length = 6` and the draws
0, 1, 2, ...: one restart, five normal steps, `2 + 1 * 2 + 5 = 9` words. -/
theorem total_words_emitted_witness :
    (1 ≤ 2 ∧ 2 ≤ catWodge.num_words) ∧
    (disassociated_press catWodge 2 6 false true (fun k => k) 0).map
      (fun st => (st.restarts, stepCount st.out, wordCount st.out)) = .ok (1, 5, 9) ∧
    ∀ st, disassociated_press catWodge 2 6 false true (fun k => k) 0 = .ok st →
      st.restarts ≤ 6 ∧ stepCount st.out = 6 - st.restarts ∧
      wordCount st.out = 2 + st.restarts * 2 + (6 - st.restarts) :=
  ⟨by decide, by decide, fun st h =>
    total_words_emitted catWodge 2 6 false true (fun k => k) 0 (by decide) (by decide) st h⟩

/-! ## get_words on input without NUL -/

theorem splitOnP_congr (p q : Byte → Bool) (l : List Byte) (h : ∀ c ∈ l, p c = q c) :
    l.splitOnP p = l.splitOnP q := by
  induction l with
  | nil => simp [List.splitOnP_nil]
  | cons x xs ih =>
    rw [List.splitOnP_cons, List.splitOnP_cons, ih (fun c hc => h c (List.mem_cons_of_mem _ hc)),
      h x (List.mem_cons_self _ _)]

theorem splitOnP_pieces (p : Byte → Bool) (l : List Byte) :
    ∀ piece ∈ l.splitOnP p, ∀ c ∈ piece, p c = false := by
  induction l with
  | nil => simp [List.splitOnP_nil]
  | cons x xs ih =>
    rw [List.splitOnP_cons]
    by_cases hx : p x = true
    · simp only [hx, if_true]
      intro piece hp
      rcases List.mem_cons.mp hp with rfl | hp
      · simp
      · exact ih piece hp
    · simp only [hx, if_false]
      cases hsp : xs.splitOnP p with
      | nil => simp [List.modifyHead]
      | cons a as =>
        rw [hsp] at ih
        simp only [List.modifyHead]
        intro piece hp
        rcases List.mem_cons.mp hp with rfl | hp
        · intro c hc
          rcases List.mem_cons.mp hc with rfl | hc
          · simpa using hx
          · exact ih a (List.mem_cons_self _ _) c hc
        · exact ih piece (List.mem_cons_of_mem _ hp)

/-- C15 (amended): for every input byte sequence of fewer than `2^30` bytes
that contains no NUL byte and does not begin with a whitespace byte, `get_words`
returns exactly the list of maximal runs of non-whitespace bytes of the input,
in input order and byte for byte; no token is empty and no token contains a
whitespace byte, so runs of several whitespace bytes inside the input and
whitespace at its end add no token. -/
theorem get_words_whitespace_runs (f : List Byte) (hsize : f.length < 1073741824)
    (hnul : ∀ c ∈ f, c ≠ 0)
    (hhead : ∀ c, f.head? = some c → isspace c = false) :
    ∃ wodge, get_words f = .ok wodge ∧
      wodge.tokens = maximalRuns isspace f ∧
      ∀ t ∈ wodge.tokens, t ≠ [] ∧ ∀ c ∈ t, isspace c = false := by
  have hsep : ∀ c ∈ f, isSeparator c = isspace c := by
    intro c hc
    have := hnul c hc
    simp [isSeparator, this]
  have hhead2 : ∀ c, f.head? = some c → isSeparator c = false := by
    intro c hc
    have hmem : c ∈ f := by
      cases f with
      | nil => simp at hc
      | cons x xs => simp at hc; simp [hc]
    rw [hsep c hmem]
    exact hhead c hc
  obtain ⟨wodge, h1, _, h3⟩ := get_words_runs f hsize hhead2
  have h4 : wodge.tokens = maximalRuns isspace f := by
    rw [h3]
    unfold maximalRuns
    rw [splitOnP_congr isSeparator isspace f hsep]
  refine ⟨wodge, h1, h4, ?_⟩
  intro t ht
  rw [h4] at ht
  unfold maximalRuns at ht
  obtain ⟨ht1, ht2⟩ := List.mem_filter.mp ht
  exact ⟨by simpa using ht2, splitOnP_pieces isspace f t ht1⟩

/-- C15, witness: the input `the cat`, two spaces, `sat`, newline, space. -/
theorem get_words_whitespace_runs_witness :
    ((bytes "the cat  sat\n ").length < 1073741824 ∧
      (∀ c ∈ bytes "the cat  sat\n ", c ≠ 0) ∧
      ∀ c, (bytes "the cat  sat\n ").head? = some c → isspace c = false) ∧
    (get_words (bytes "the cat  sat\n ")).map WODGE.tokens =
      .ok [bytes "the", bytes "cat", bytes "sat"] ∧
    ∃ wodge, get_words (bytes "the cat  sat\n ") = .ok wodge ∧
      wodge.tokens = maximalRuns isspace (bytes "the cat  sat\n ") ∧
      ∀ t ∈ wodge.tokens, t ≠ [] ∧ ∀ c ∈ t, isspace c = false :=
  ⟨by decide, by decide,
    get_words_whitespace_runs (bytes "the cat  sat\n ") (by decide) (by decide) (by decide)⟩

/-- C15, counterexample: the input of `2^30` bytes `x` contains no NUL byte and
does not begin with a whitespace byte, and `get_words` does not return on it:
when the byte number `2^30` has been stored, `data_sz *= 2` overflows. -/
theorem get_words_large_input_overflows :
    (∀ c ∈ List.replicate 1073741824 (120 : Byte), c ≠ 0) ∧
    (∀ c, (List.replicate 1073741824 (120 : Byte)).head? = some c → isspace c = false) ∧
    get_words (List.replicate 1073741824 120) = .error .overflow :=
  ⟨replicate_no_nul 1073741824 120 (by decide), replicate_head 1073741824 120 (by decide),
    get_words_replicate_overflow 1073741824 120 (Nat.le_refl _)⟩

/-! ## get_words: capacities, reads and termination -/

theorem indexLoop_offsets (data : List Byte) (data_p : Nat) (hlen : data.length = data_p + 1)
    (hlast : data[data_p]? = some 0) (hsize : data_p < 1073741824) :
    ∀ (fuel i : Nat) (words : List Nat) (words_sz : Nat) (r : List Nat × Nat),
    words.length ≤ i →
    indexLoop data data_p fuel i words words_sz = .ok r →
    ∃ offs, r.1 = words ++ offs ∧ offs.Pairwise (fun x y => x < y) ∧
      ∀ o ∈ offs, i ≤ o ∧ o < data_p := by
  intro fuel
  induction fuel with
  | zero => intro i words words_sz r _ h; simp [indexLoop] at h
  | succ fuel ih =>
    intro i words words_sz r hwi h
    by_cases hi : i < data_p
    · by_cases hw : words.length < words_sz
      · obtain ⟨e, he, e1, e2, e3, _⟩ :=
          endOfWord_spec data data_p hlen hlast (data_p + 1) i hi (by omega)
        obtain ⟨nx, hnx, r1, _, _, _, _⟩ :=
          nextWord_spec data data_p hlen (data_p + 1) e e2 e3 (by omega)
        rw [indexLoop_step data data_p fuel i words words_sz hi hw hwi hsize, he, ok_bind,
          hnx, ok_bind] at h
        obtain ⟨offs, h1, h2, h3⟩ := ih nx _ _ r
          (by simp only [List.length_append, List.length_singleton]; omega) h
        refine ⟨i :: offs, by simp [h1], ?_, ?_⟩
        · rw [List.pairwise_cons]
          exact ⟨fun o ho => by have := (h3 o ho).1; omega, h2⟩
        · intro o ho
          rcases List.mem_cons.mp ho with rfl | ho
          · exact ⟨le_refl _, hi⟩
          · have := h3 o ho
            exact ⟨by omega, this.2⟩
      · simp [indexLoop, hi, hw] at h
    · simp only [indexLoop, hi, if_false, pure_eq_ok, Except.ok.injEq] at h
      subst h
      exact ⟨[], by simp, List.Pairwise.nil, by simp⟩

theorem slurp_append (a b : List Byte) : ∀ (data : List Byte) (data_sz : Nat),
    slurp (a ++ b) data data_sz =
      (slurp a data data_sz >>= fun r => slurp b r.1 r.2) := by
  induction a with
  | nil => intro data data_sz; simp [slurp]
  | cons c a ih =>
    intro data data_sz
    by_cases h : data.length < data_sz
    · by_cases hge : (data ++ [stored c]).length ≥ data_sz
      · simp only [List.cons_append, slurp, h, if_true, hge]
        cases hd : double data_sz with
        | error e => simp
        | ok sz => simp only [ok_bind]; exact ih _ _
      · simp only [List.cons_append, slurp, h, if_true, hge, if_false]
        exact ih _ _
    · simp [slurp, h]

/-- C16 (amended): for every input byte sequence `f` of length `data_p < 2^30`:
after the bytes of any prefix `a` of `f` have been read, the first loop of
`get_words` has `data_p < data_sz` (and goes on from that state with the rest of
the input); the second loop ends with `words_p < words_sz`; no write of either
loop or of the two final terminators is outside the capacity, no capacity
overflows an `int`, and no read of the scan is at an offset greater than
`data_p` (the checked reads, writes and doublings of the model do not fault, and
the scan returns within its fuel); the offsets stored by the scan are strictly
increasing and below `data_p`. -/
theorem get_words_within_capacity (f : List Byte) (hsize : f.length < 1073741824) :
    (∀ a b, f = a ++ b → ∃ sz, slurp a [] 64 = .ok (a.map stored, sz) ∧
      (a.map stored).length < sz ∧ sz ≤ INT_MAX ∧
      slurp f [] 64 = slurp b (a.map stored) sz) ∧
    ∃ data_sz words words_sz,
      slurp f [] 64 = .ok (f.map stored, data_sz) ∧ (f.map stored).length < data_sz ∧
      indexLoop (f.map stored ++ [0]) (f.map stored).length ((f.map stored).length + 1)
        0 [] 64 = .ok (words, words_sz) ∧
      words.length < words_sz ∧
      get_words f = .ok { words := words, data := f.map stored ++ [0] } ∧
      words.Pairwise (fun x y => x < y) ∧ ∀ o ∈ words, o < f.length := by
  constructor
  · intro a b hab
    have hsa : a.length < 1073741824 := by
      rw [hab, List.length_append] at hsize; omega
    obtain ⟨sz, h1, h2, h3⟩ := slurp_capacity a [] 64 (by simp) (by simpa using hsa)
      (by unfold INT_MAX; omega)
    simp only [List.nil_append] at h1 h2
    refine ⟨sz, h1, h2, h3, ?_⟩
    rw [hab, slurp_append, h1]
    rfl
  obtain ⟨sz, hsl, hsz⟩ := slurp_spec f [] 64 (by simp) (by simpa using hsize)
  simp only [List.nil_append] at hsl hsz
  have hlen : (f.map stored ++ [0]).length = (f.map stored).length + 1 := by simp
  have hlast : (f.map stored ++ [0])[(f.map stored).length]? = some 0 := by simp
  have hsize2 : (f.map stored).length < 1073741824 := by simpa using hsize
  obtain ⟨offs, sz2, ho, hs, _⟩ :=
    indexLoop_spec _ _ hlen hlast hsize2 ((f.map stored).length + 1) 0 [] 64 (by omega)
      (by simp) (by simp) (by omega)
  simp only [List.nil_append] at ho hs
  obtain ⟨offs2, h1, h2, h3⟩ := indexLoop_offsets _ _ hlen hlast hsize2 _ _ _ _ _ (by simp) ho
  simp only [List.nil_append] at h1
  subst h1
  refine ⟨sz, offs, sz2, hsl, hsz, ho, hs, ?_, h2, ?_⟩
  · unfold get_words
    simp only [hsl, ok_bind, hsz, if_true, ho, hs, pure_eq_ok]
  · intro o ho2
    have := (h3 o ho2).2
    simpa using this

/-- C16, witness: the input `the cat`, two spaces, `sat`. -/
theorem get_words_within_capacity_witness :
    (bytes "the cat  sat").length < 1073741824 ∧
    ((∀ a b, bytes "the cat  sat" = a ++ b →
      ∃ sz, slurp a [] 64 = .ok (a.map stored, sz) ∧
        (a.map stored).length < sz ∧ sz ≤ INT_MAX ∧
        slurp (bytes "the cat  sat") [] 64 = slurp b (a.map stored) sz) ∧
    ∃ data_sz words words_sz,
      slurp (bytes "the cat  sat") [] 64 =
        .ok ((bytes "the cat  sat").map stored, data_sz) ∧
      ((bytes "the cat  sat").map stored).length < data_sz ∧
      indexLoop ((bytes "the cat  sat").map stored ++ [0])
        ((bytes "the cat  sat").map stored).length
        (((bytes "the cat  sat").map stored).length + 1) 0 [] 64 = .ok (words, words_sz) ∧
      words.length < words_sz ∧
      get_words (bytes "the cat  sat") =
        .ok { words := words, data := (bytes "the cat  sat").map stored ++ [0] } ∧
      words.Pairwise (fun x y => x < y) ∧ ∀ o ∈ words, o < (bytes "the cat  sat").length) :=
  ⟨by decide, get_words_within_capacity (bytes "the cat  sat") (by decide)⟩

/-- C16, counterexample: on the input of `2^30` spaces the first loop of
`get_words` does not keep `data_p < data_sz`: when the byte number `2^30` has been
stored, `data_p` has reached `data_sz = 2^30` and `data_sz *= 2` overflows. -/
theorem slurp_capacity_overflows :
    slurp (List.replicate 1073741824 32) [] 64 = .error .overflow ∧
    double 1073741824 = .error .overflow ∧ double 536870912 = .ok 1073741824 :=
  ⟨slurp_replicate_overflow 1073741824 32 (Nat.le_refl _), by decide, by decide⟩

/-! ## The rejection loop can exit -/

theorem next_index_injective {num_words n m1 m2 : Nat} (hn : 1 ≤ n)
    (h1 : m1 + n ≤ num_words) (h2 : m2 + n ≤ num_words)
    (h : (m1 + n) % num_words = (m2 + n) % num_words) : m1 = m2 := by
  have key : ∀ m, m + n ≤ num_words →
      (m + n) % num_words = if m + n = num_words then 0 else m + n := by
    intro m hm
    split
    · rename_i heq; rw [heq]; exact Nat.mod_self _
    · exact Nat.mod_eq_of_lt (by omega)
  rw [key m1 h1, key m2 h2] at h
  split at h <;> split at h <;> omega

theorem pick_of_lt (wodge : WODGE) (found : List Nat) (n r : Nat) (hr : r < found.length)
    (hnw : 0 < wodge.num_words) :
    ∃ m, found[r]? = some m ∧ pick wodge found n r = .ok ((m + n) % wodge.num_words) := by
  refine ⟨found[r], List.getElem?_eq_getElem hr, ?_⟩
  have hlen : 0 < found.length := by omega
  simp [pick, cmod_pos hlen, Nat.mod_eq_of_lt hr,
    rd_of_getElem? (List.getElem?_eq_getElem hr), cmod_pos hnw]

theorem rejectLoop_exits (wodge : WODGE) (rand : Nat → Nat) (found : List Nat)
    (n oldindex : Nat) (hne : found ≠ []) (hnw : 0 < wodge.num_words) :
    ∀ (j rng fuel : Nat),
    (found.length > 1 → pick wodge found n (rand (rng + j)) ≠ .ok (oldindex + 1)) →
    j < fuel →
    ∃ index rng2, rejectLoop wodge rand found n oldindex fuel rng = .ok (index, rng2) ∧
      rng < rng2 ∧ rng2 ≤ rng + j + 1 := by
  intro j
  induction j with
  | zero =>
    intro rng fuel hacc hfuel
    obtain ⟨fuel, rfl⟩ : ∃ f, fuel = f + 1 := ⟨fuel - 1, by omega⟩
    obtain ⟨m, _, hp⟩ := pick_spec wodge found n (rand rng) hne hnw
    have hc : ¬ (found.length > 1 ∧ (m + n) % wodge.num_words = oldindex + 1) := by
      rintro ⟨h1, h2⟩
      apply hacc h1
      rw [Nat.add_zero, hp, h2]
    refine ⟨(m + n) % wodge.num_words, rng + 1, ?_, by omega, by omega⟩
    simp only [rejectLoop, hp, ok_bind, pure_eq_ok]
    rw [if_neg hc]
  | succ j ih =>
    intro rng fuel hacc hfuel
    obtain ⟨fuel, rfl⟩ : ∃ f, fuel = f + 1 := ⟨fuel - 1, by omega⟩
    obtain ⟨m, _, hp⟩ := pick_spec wodge found n (rand rng) hne hnw
    by_cases hc : found.length > 1 ∧ (m + n) % wodge.num_words = oldindex + 1
    · obtain ⟨index, rng2, h1, h2, h3⟩ := ih (rng + 1) fuel
        (by rw [show rng + 1 + j = rng + (j + 1) by omega]; exact hacc) (by omega)
      refine ⟨index, rng2, ?_, by omega, by omega⟩
      simp only [rejectLoop, hp, ok_bind]
      rw [if_pos hc]
      exact h1
    · refine ⟨(m + n) % wodge.num_words, rng + 1, ?_, by omega, by omega⟩
      simp only [rejectLoop, hp, ok_bind, pure_eq_ok]
      rw [if_neg hc]

/-- C13: for every corpus with `num_words >= n >= 1` the map
`m -> (m + n) % num_words` is injective on the starts `[0, num_words - n]`; hence at
most one element of a match set maps to `oldindex + 1`, and a match set with
more than one element has a draw that is accepted. The rejection loop exits as
soon as the stream makes an accepted draw (given fuel for the draws before it),
and with a match set of exactly one element it exits after a single draw. -/
theorem rejection_loop_can_exit (wodge : WODGE) (word_buffer : List Word)
    (n buf_ptr oldindex : Nat) (hn : 1 ≤ n) (hnw : n ≤ wodge.num_words)
    (hwb : word_buffer.length = n) (found : List Nat)
    (hs : search wodge word_buffer n buf_ptr = .ok found) :
    (∀ m1 m2, m1 ≤ wodge.num_words - n → m2 ≤ wodge.num_words - n →
      (m1 + n) % wodge.num_words = (m2 + n) % wodge.num_words → m1 = m2) ∧
    (∀ m1 ∈ found, ∀ m2 ∈ found, (m1 + n) % wodge.num_words = oldindex + 1 →
      (m2 + n) % wodge.num_words = oldindex + 1 → m1 = m2) ∧
    (found.length > 1 →
      ∃ r, r < found.length ∧ pick wodge found n r ≠ .ok (oldindex + 1)) ∧
    (∀ (rand : Nat → Nat) (rng j fuel : Nat), found ≠ [] →
      (found.length > 1 → pick wodge found n (rand (rng + j)) ≠ .ok (oldindex + 1)) →
      j < fuel →
      ∃ index rng2, rejectLoop wodge rand found n oldindex fuel rng = .ok (index, rng2) ∧
        rng < rng2 ∧ rng2 ≤ rng + j + 1) ∧
    (found.length = 1 → ∀ (rand : Nat → Nat) (rng fuel : Nat),
      ∃ index, rejectLoop wodge rand found n oldindex (fuel + 1) rng =
        .ok (index, rng + 1)) := by
  have hpos : 0 < wodge.num_words := by omega
  have hrange : ∀ m ∈ found, m + n ≤ wodge.num_words := fun m hm =>
    (mem_search_le wodge word_buffer n buf_ptr hwb hnw hs hm).1
  have hinj : ∀ m1 m2, m1 + n ≤ wodge.num_words → m2 + n ≤ wodge.num_words →
      (m1 + n) % wodge.num_words = (m2 + n) % wodge.num_words → m1 = m2 :=
    fun m1 m2 h1 h2 h => next_index_injective hn h1 h2 h
  have hsorted : found.Pairwise (fun x y => x < y) := by
    rw [search_spec wodge word_buffer n buf_ptr hwb] at hs
    cases hs
    exact (List.pairwise_lt_range _).filter _
  refine ⟨fun m1 m2 h1 h2 h => hinj m1 m2 (by omega) (by omega) h,
    fun m1 hm1 m2 hm2 h1 h2 => hinj m1 m2 (hrange m1 hm1) (hrange m2 hm2) (h1.trans h2.symm),
    ?_, ?_, ?_⟩
  · intro hlen
    match found, hsorted, hrange, hlen with
    | a :: b :: rest, hsorted, hrange, _ =>
      have hab : a < b := (List.pairwise_cons.mp hsorted).1 b (List.mem_cons_self _ _)
      have ha := hrange a (List.mem_cons_self _ _)
      have hb := hrange b (List.mem_cons_of_mem _ (List.mem_cons_self _ _))
      obtain ⟨ma, hma, hpa⟩ := pick_of_lt wodge (a :: b :: rest) n 0 (by simp) hpos
      obtain ⟨mb, hmb, hpb⟩ := pick_of_lt wodge (a :: b :: rest) n 1 (by simp) hpos
      simp only [List.getElem?_cons_zero, Option.some.injEq] at hma
      simp only [List.getElem?_cons_succ, List.getElem?_cons_zero, Option.some.injEq] at hmb
      subst hma hmb
      by_cases h : (a + n) % wodge.num_words = oldindex + 1
      · refine ⟨1, by simp, ?_⟩
        rw [hpb]
        intro h2
        have := hinj a b ha hb (h.trans (Except.ok.inj h2).symm)
        omega
      · refine ⟨0, by simp, ?_⟩
        rw [hpa]
        intro h2
        exact h (Except.ok.inj h2)
  · intro rand rng j fuel hne hacc hfuel
    exact rejectLoop_exits wodge rand found n oldindex hne hpos j rng fuel hacc hfuel
  · intro hlen rand rng fuel
    have hne : found ≠ [] := by
      intro h; rw [h] at hlen; simp at hlen
    obtain ⟨index, rng2, h1, h2, h3⟩ := rejectLoop_exits wodge rand found n oldindex hne hpos
      0 rng (fuel + 1) (fun h => by omega) (by omega)
    have : rng2 = rng + 1 := by omega
    subst this
    exact ⟨index, h1⟩

/-- C13, witness: in the 9-token corpus with `n = 2`, the window `the cat` and
`oldindex = 7`, the match set is `[0, 6]`; the match 6 maps to 8 and is rejected,
the match 0 maps to 2 and is accepted. -/
theorem rejection_loop_can_exit_witness :
    (1 ≤ 2 ∧ 2 ≤ catWodge.num_words ∧ [bytes "the", bytes "cat"].length = 2 ∧
      search catWodge [bytes "the", bytes "cat"] 2 0 = .ok [0, 6]) ∧
    (pick catWodge [0, 6] 2 1 = .ok (7 + 1) ∧ pick catWodge [0, 6] 2 0 = .ok 2 ∧
      rejectLoop catWodge (fun k => if k < 3 then 1 else 0) [0, 6] 2 7 4 0 = .ok (2, 4) ∧
      rejectLoop catWodge (fun _ => 1) [0, 6] 2 7 50 0 = .error .outOfFuel) ∧
    (∀ m1 ∈ [0, 6], ∀ m2 ∈ [0, 6], (m1 + 2) % catWodge.num_words = 7 + 1 →
      (m2 + 2) % catWodge.num_words = 7 + 1 → m1 = m2) :=
  ⟨by decide, by decide,
    (rejection_loop_can_exit catWodge [bytes "the", bytes "cat"] 2 0 7 (by decide)
      (by decide) (by decide) [0, 6] (by decide)).2.1⟩

/-! ## The window -/

theorem cursor_advance (bp n k : Nat) : ((bp + 1) % n + k) % n = (bp + (k + 1)) % n := by
  rw [Nat.mod_add_mod]
  congr 1
  omega

theorem cursor_wraps {bp n : Nat} (hbp : bp < n) : (bp + n) % n = bp := by
  rw [Nat.add_mod_right, Nat.mod_eq_of_lt hbp]

theorem cursor_ne {bp n j : Nat} (hbp : bp < n) (hj0 : 0 < j) (hj : j < n) :
    (bp + j) % n ≠ bp := by
  by_cases h : bp + j < n
  · rw [Nat.mod_eq_of_lt h]; omega
  · rw [Nat.mod_eq_sub_mod (by omega), Nat.mod_eq_of_lt (by omega)]; omega

theorem window_shift (word_buffer : List Word) (n bp : Nat) (hwb : word_buffer.length = n)
    (hbp : bp < n) (t : Word) (k : Nat) (hk : k < n) :
    (word_buffer.set bp t)[((bp + 1) % n + k) % n]? =
      if k + 1 = n then some t else word_buffer[(bp + (k + 1)) % n]? := by
  rw [cursor_advance]
  split
  · rename_i h
    rw [h, cursor_wraps hbp, List.getElem?_set_self (by omega)]
  · rename_i h
    rw [List.getElem?_set_ne (cursor_ne hbp (by omega) (by omega)).symm]

theorem printedWords_append (a b : List Item) :
    printedWords (a ++ b) = printedWords a ++ printedWords b := by
  simp [printedWords]

theorem printedWords_seeds : ∀ (idxs : List Nat) (ts : List Word), ts.length ≤ idxs.length →
    printedWords (List.zipWith Item.seed idxs ts) = ts
  | _, [], _ => by simp [printedWords]
  | [], t :: ts, h => by simp at h
  | i :: idxs, t :: ts, h => by
    have ih := printedWords_seeds idxs ts (by simpa using h)
    simp only [List.zipWith_cons_cons]
    unfold printedWords at ih ⊢
    simp only [List.filterMap_cons]
    rw [ih]

theorem windowInv_fresh (wodge : WODGE) (n s : Nat) (hs : s + n ≤ wodge.num_words)
    (out : List Item) (st : GenState)
    (hwb : st.word_buffer = (wodge.tokens.drop s).take n) (hbp : st.buf_ptr = 0)
    (hn : 1 ≤ n)
    (hout : st.out = out ++ List.zipWith Item.seed (List.range' s n)
      ((wodge.tokens.drop s).take n)) :
    WindowInv n st := by
  have hlen : ((wodge.tokens.drop s).take n).length = n := by
    simp only [List.length_take, List.length_drop, tokens_length]; omega
  have hp : printedWords st.out = printedWords out ++ (wodge.tokens.drop s).take n := by
    rw [hout, printedWords_append, printedWords_seeds _ _ (by simp [hlen])]
  refine ⟨by rw [hwb, hlen], by omega, by rw [hp]; simp [hlen], ?_⟩
  intro k hk
  rw [hp, hbp, hwb, Nat.zero_add, Nat.mod_eq_of_lt hk, List.length_append, hlen,
    List.getElem?_append_right (by omega)]
  congr 1
  omega

theorem windowInv_step (n : Nat) (st st2 : GenState) (t : Word) (mark : List Item)
    (index : Nat) (hmark : printedWords mark = [])
    (hW : WindowInv n st)
    (hwb : st2.word_buffer = st.word_buffer.set st.buf_ptr t)
    (hbp : st2.buf_ptr = (st.buf_ptr + 1) % n)
    (hout : st2.out = st.out ++ mark ++ [Item.step index t]) :
    WindowInv n st2 := by
  obtain ⟨h1, h2, h3, h4⟩ := hW
  have hp : printedWords st2.out = printedWords st.out ++ [t] := by
    rw [hout, printedWords_append, printedWords_append, hmark]
    simp [printedWords]
  refine ⟨by rw [hwb]; simpa using h1, by rw [hbp]; exact Nat.mod_lt _ (by omega),
    by rw [hp]; simp; omega, ?_⟩
  intro k hk
  rw [hwb, hbp, window_shift st.word_buffer n st.buf_ptr h1 h2 t k hk, hp]
  split
  · rename_i h
    rw [List.length_append, List.length_singleton,
      List.getElem?_append_right (by omega)]
    rw [show (printedWords st.out).length + 1 - n + k - (printedWords st.out).length = 0 by
      omega]
    rfl
  · rename_i h
    rw [h4 (k + 1) (by omega), List.length_append, List.length_singleton,
      List.getElem?_append_left (by omega)]
    congr 1
    omega

theorem iteration_windowInv (wodge : WODGE) (n : Nat) (avoid_normality show_boundaries : Bool)
    (rand : Nat → Nat) (fuel : Nat) (hn : 1 ≤ n) (hnw : n ≤ wodge.num_words)
    (st st2 : GenState) (hW : WindowInv n st)
    (hit : iteration wodge n avoid_normality show_boundaries rand fuel st = .ok st2) :
    WindowInv n st2 := by
  obtain ⟨found, hs, h⟩ := iteration_cases wodge n avoid_normality show_boundaries rand fuel
    st hn hnw hW.1 hW.2.1
  rcases h with ⟨h1, _⟩ | ⟨_, _, h2⟩ |
    ⟨_, st3, m, t, h1, _, _, _, _, _, h5, h6, h7, _⟩
  · subst h1
    have hr := iteration_restart wodge n avoid_normality show_boundaries rand fuel st hnw hs
    rw [hr] at hit
    cases hit
    exact windowInv_fresh wodge n _ (seedIndex_spec hnw (rand st.rng)).2 st.out _ rfl rfl hn
      rfl
  · rw [h2] at hit; cases hit
  · rw [h1] at hit
    cases hit
    by_cases hm : show_boundaries = true ∧ st2.index ≠ st.index + 1
    · rw [if_pos hm] at h5
      exact windowInv_step n st st2 t [Item.marker] st2.index rfl hW h6 h7 h5
    · rw [if_neg hm] at h5
      exact windowInv_step n st st2 t [] st2.index rfl hW h6 h7 (by simpa using h5)

theorem mainLoop_induct (wodge : WODGE) (n : Nat) (avoid_normality show_boundaries : Bool)
    (rand : Nat → Nat) (fuel : Nat) (P : GenState → Prop)
    (hstep : ∀ st st2, P st →
      iteration wodge n avoid_normality show_boundaries rand fuel st = .ok st2 → P st2) :
    ∀ (length : Nat) (st st2 : GenState), P st →
    mainLoop wodge n avoid_normality show_boundaries rand fuel length st = .ok st2 → P st2 := by
  intro length
  induction length with
  | zero =>
    intro st st2 hP h
    simp only [mainLoop, pure_eq_ok, Except.ok.injEq] at h
    subst h
    exact hP
  | succ length ih =>
    intro st st2 hP h
    simp only [mainLoop] at h
    cases hit : iteration wodge n avoid_normality show_boundaries rand fuel st with
    | error e => simp [hit] at h
    | ok st1 =>
      simp only [hit, ok_bind] at h
      exact ih st1 st2 (hstep st st1 hP hit) h

theorem mainLoop_add (wodge : WODGE) (n : Nat) (avoid_normality show_boundaries : Bool)
    (rand : Nat → Nat) (fuel : Nat) : ∀ (a b : Nat) (st : GenState),
    mainLoop wodge n avoid_normality show_boundaries rand fuel (a + b) st =
      (mainLoop wodge n avoid_normality show_boundaries rand fuel a st >>=
        mainLoop wodge n avoid_normality show_boundaries rand fuel b) := by
  intro a
  induction a with
  | zero => intro b st; simp [mainLoop]
  | succ a ih =>
    intro b st
    rw [show a + 1 + b = (a + b) + 1 by omega]
    simp only [mainLoop]
    cases hit : iteration wodge n avoid_normality show_boundaries rand fuel st with
    | error e => simp
    | ok st1 => simp [ih]

/-- C11: for every corpus with `num_words >= n >= 1` and every run of
`disassociated_press` of `length` passes, the state `st` at the head of pass
`j + 1` (the state in which the run of `j <= length` passes ends, and from which
the remaining `length - j` passes of the longer run go on) has a window of
exactly `n` cells and a cursor below `n`, and for `k = 0..n-1` the cell
`word_buffer[(buf_ptr + k) % n]` holds the `k`-th of the `n` most recently printed
words, markers excluded, in the order in which they were printed. -/
theorem window_holds_last_emitted (wodge : WODGE) (n length : Nat)
    (avoid_normality show_boundaries : Bool) (rand : Nat → Nat) (fuel : Nat)
    (hn : 1 ≤ n) (hnw : n ≤ wodge.num_words) (j : Nat) (hj : j ≤ length) (st : GenState)
    (h : disassociated_press wodge n j avoid_normality show_boundaries rand fuel = .ok st) :
    disassociated_press wodge n length avoid_normality show_boundaries rand fuel =
      mainLoop wodge n avoid_normality show_boundaries rand fuel (length - j) st ∧
    st.word_buffer.length = n ∧ st.buf_ptr < n ∧ n ≤ (printedWords st.out).length ∧
    ∀ k, k < n → ∃ w, st.word_buffer[(st.buf_ptr + k) % n]? = some w ∧
      (printedWords st.out)[(printedWords st.out).length - n + k]? = some w := by
  obtain ⟨st0, seeds, h0, _, _, hout, _, _, hidx, hlt, hbp, hwb, _⟩ :=
    seeding_spec wodge n rand hn hnw
  have hr : seeding wodge n rand = .ok
      { word_buffer := (wodge.tokens.drop (rand 0 % (wodge.num_words + 1 - n))).take n,
        buf_ptr := 0, index := rand 0 % (wodge.num_words + 1 - n), rng := 1,
        out := List.zipWith Item.seed (List.range' (rand 0 % (wodge.num_words + 1 - n)) n)
          ((wodge.tokens.drop (rand 0 % (wodge.num_words + 1 - n))).take n),
        restarts := 0 } := by
    have h3 := fillLoop_spec wodge (rand 0 % (wodge.num_words + 1 - n)) n 0 [] [] (by omega)
    simp only [Nat.add_zero, List.nil_append] at h3
    simp [seeding, (seedIndex_spec hnw (rand 0)).1, h3]
  have hW0 : WindowInv n st0 := by
    rw [hr] at h0
    cases h0
    exact windowInv_fresh wodge n _ (seedIndex_spec hnw (rand 0)).2 [] _ rfl rfl hn rfl
  have hmain : mainLoop wodge n avoid_normality show_boundaries rand fuel j st0 = .ok st := by
    simpa [disassociated_press, h0] using h
  have hW : WindowInv n st :=
    mainLoop_induct wodge n avoid_normality show_boundaries rand fuel (WindowInv n)
      (fun s s2 hs hit => iteration_windowInv wodge n avoid_normality show_boundaries rand
        fuel hn hnw s s2 hs hit) j st0 st hW0 hmain
  refine ⟨?_, hW.1, hW.2.1, hW.2.2.1, ?_⟩
  · have hsplit := mainLoop_add wodge n avoid_normality show_boundaries rand fuel j
      (length - j) st0
    rw [show j + (length - j) = length by omega, hmain] at hsplit
    simp only [disassociated_press, h0, ok_bind]
    exact hsplit
  · intro k hk
    have hk1 : (st.buf_ptr + k) % n < st.word_buffer.length := by
      rw [hW.1]; exact Nat.mod_lt _ (by omega)
    exact ⟨_, List.getElem?_eq_getElem hk1,
      by rw [← hW.2.2.2 k hk]; exact List.getElem?_eq_getElem hk1⟩

/-- C11, witness: on the 9-token corpus with `n = 2` the run of one pass ends in
the state whose window, read from the cursor 1, is `the cat`, the last two
words printed (`mat the cat`); the run of two passes goes on from it. -/
theorem window_holds_last_emitted_witness :
    (1 ≤ 2 ∧ 2 ≤ catWodge.num_words ∧ 1 ≤ 2 ∧
      disassociated_press catWodge 2 1 true false catDraws 2 = .ok catState) ∧
    (printedWords catState.out = [bytes "mat", bytes "the", bytes "cat"] ∧
      catState.word_buffer = [bytes "cat", bytes "the"] ∧ catState.buf_ptr = 1 ∧
      disassociated_press catWodge 2 2 true false catDraws 2 = .ok catNext) ∧
    (disassociated_press catWodge 2 2 true false catDraws 2 =
      mainLoop catWodge 2 true false catDraws 2 (2 - 1) catState ∧
    catState.word_buffer.length = 2 ∧ catState.buf_ptr < 2 ∧
    2 ≤ (printedWords catState.out).length ∧
    ∀ k, k < 2 → ∃ w, catState.word_buffer[(catState.buf_ptr + k) % 2]? = some w ∧
      (printedWords catState.out)[(printedWords catState.out).length - 2 + k]? = some w) :=
  ⟨by decide, by decide,
    window_holds_last_emitted catWodge 2 2 true false catDraws 2 (by decide) (by decide)
      1 (by decide) catState (by decide)⟩

/-! ## The match set of the next pass -/

theorem strcasecmp_self (a : Word) : strcasecmp a a = 0 :=
  (strcasecmp_eq_zero_iff a a).mpr rfl

theorem mem_search_of_match (wodge : WODGE) (word_buffer : List Word) (n buf_ptr : Nat)
    (hwb : word_buffer.length = n) {found : List Nat}
    (hs : search wodge word_buffer n buf_ptr = .ok found) {i : Nat}
    (hi : i + n ≤ wodge.num_words)
    (hm : windowMatch wodge word_buffer n buf_ptr i = true) : i ∈ found := by
  rw [search_spec wodge word_buffer n buf_ptr hwb] at hs
  cases hs
  exact List.mem_filter.mpr ⟨List.mem_range.mpr (by omega), hm⟩

theorem fresh_window_matches (wodge : WODGE) (n s : Nat) (hs : s + n ≤ wodge.num_words) :
    windowMatch wodge ((wodge.tokens.drop s).take n) n 0 s = true := by
  rw [windowMatch_iff]
  intro k hk
  have hk2 : s + k < wodge.tokens.length := by rw [tokens_length]; omega
  unfold slotMatch
  rw [Nat.zero_add, Nat.mod_eq_of_lt hk, List.getElem?_take_of_lt hk, List.getElem?_drop,
    List.getElem?_eq_getElem hk2]
  simp [strcasecmp_self]

theorem shifted_window_matches (wodge : WODGE) (word_buffer : List Word) (n bp m : Nat)
    (t : Word) (hwb : word_buffer.length = n) (hbp : bp < n)
    (hm : windowMatch wodge word_buffer n bp m = true)
    (ht : wodge.tokens[m + n]? = some t) :
    windowMatch wodge (word_buffer.set bp t) n ((bp + 1) % n) (m + 1) = true := by
  rw [windowMatch_iff] at hm ⊢
  intro k hk
  unfold slotMatch
  rw [window_shift word_buffer n bp hwb hbp t k hk]
  by_cases h : k + 1 = n
  · rw [if_pos h, show m + 1 + k = m + n by omega, ht]
    simp [strcasecmp_self]
  · rw [if_neg h, show m + 1 + k = m + (k + 1) by omega]
    have := hm (k + 1) (by omega)
    unfold slotMatch at this
    exact this

theorem single_window_matches (wodge : WODGE) (word_buffer : List Word) (bp index : Nat)
    (t : Word) (hwb : word_buffer.length = 1) (hbp : bp < 1)
    (ht : wodge.tokens[index]? = some t) :
    windowMatch wodge (word_buffer.set bp t) 1 ((bp + 1) % 1) index = true := by
  rw [windowMatch_iff]
  intro k hk
  have hk0 : k = 0 := by omega
  subst hk0
  unfold slotMatch
  rw [window_shift word_buffer 1 bp hwb hbp t 0 hk, if_pos rfl, Nat.add_zero, ht]
  simp [strcasecmp_self]

theorem next_match_set (wodge : WODGE) (n : Nat) (avoid_normality show_boundaries : Bool)
    (rand : Nat → Nat) (fuel : Nat) (hn : 1 ≤ n) (hnw : n ≤ wodge.num_words)
    (st st2 : GenState) (found : List Nat)
    (hwb : st.word_buffer.length = n) (hbp : st.buf_ptr < n)
    (hs : search wodge st.word_buffer n st.buf_ptr = .ok found)
    (hit : iteration wodge n avoid_normality show_boundaries rand fuel st = .ok st2) :
    ∃ found2, search wodge st2.word_buffer n st2.buf_ptr = .ok found2 ∧
      st2.word_buffer.length = n ∧ st2.buf_ptr < n ∧
      (found = [] → st2.restarts = st.restarts + 1 ∧ st2.index ∈ found2) ∧
      (found ≠ [] → st2.restarts = st.restarts) ∧
      (∀ m ∈ found, st2.index = (m + n) % wodge.num_words → m < wodge.num_words - n →
        m + 1 ∈ found2) ∧
      (found2 = [] →
        found ≠ [] ∧ wodge.num_words - n ∈ found ∧ st2.index = 0 ∧ 1 < n) := by
  obtain ⟨found1, hs1, h⟩ := iteration_cases wodge n avoid_normality show_boundaries rand
    fuel st hn hnw hwb hbp
  rw [hs] at hs1
  cases hs1
  rcases h with ⟨h1, st3, seeds, h2, ⟨i1, i2, _, _⟩, h3, _, _, _, _, h4, h5, h6, _⟩ |
    ⟨_, _, h2⟩ | ⟨h1, st3, m0, t, h2, ⟨i1, i2, _, _⟩, h3, h4, h5, h6, _, h7, h8, _⟩
  · rw [h2] at hit
    cases hit
    have hs2 := search_spec wodge st2.word_buffer n st2.buf_ptr i1
    have hmem : st2.index ∈ (List.range (wodge.num_words + 1 - n)).filter
        (windowMatch wodge st2.word_buffer n st2.buf_ptr) := by
      apply mem_search_of_match wodge st2.word_buffer n st2.buf_ptr i1 hs2 h4
      rw [h6, h5]
      exact fresh_window_matches wodge n st2.index h4
    refine ⟨_, hs2, i1, i2, fun _ => ⟨h3, hmem⟩, fun h => absurd h1 h, ?_, ?_⟩
    · intro m hm
      rw [h1] at hm
      simp at hm
    · intro h
      rw [h] at hmem
      simp at hmem
  · rw [h2] at hit; cases hit
  · rw [h2] at hit
    cases hit
    have hs2 := search_spec wodge st2.word_buffer n st2.buf_ptr i1
    have hshift : ∀ m ∈ found, st2.index = (m + n) % wodge.num_words →
        m < wodge.num_words - n →
        m + 1 ∈ (List.range (wodge.num_words + 1 - n)).filter
          (windowMatch wodge st2.word_buffer n st2.buf_ptr) := by
      intro m hm hidx hlt
      have hw := (mem_search_le wodge st.word_buffer n st.buf_ptr hwb hnw hs hm).2
      have hidx2 : st2.index = m + n := by
        rw [hidx]; exact Nat.mod_eq_of_lt (by omega)
      apply mem_search_of_match wodge st2.word_buffer n st2.buf_ptr i1 hs2 (by omega)
      rw [h7, h8]
      exact shifted_window_matches wodge st.word_buffer n st.buf_ptr m t hwb hbp hw
        (by rw [← hidx2]; exact h6)
    refine ⟨_, hs2, i1, i2, fun h => absurd h h1, fun _ => h3, hshift, ?_⟩
    intro hempty
    have hm0 := (mem_search_le wodge st.word_buffer n st.buf_ptr hwb hnw hs h4).1
    have hlast : m0 = wodge.num_words - n := by
      rcases Nat.lt_or_ge m0 (wodge.num_words - n) with hlt | hge
      · have := hshift m0 h4 h5 hlt
        rw [hempty] at this
        simp at this
      · omega
    have hzero : st2.index = 0 := by
      rw [h5, show m0 + n = wodge.num_words by omega]
      exact Nat.mod_self _
    refine ⟨h1, hlast ▸ h4, hzero, ?_⟩
    rcases Nat.lt_or_ge 1 n with h | h
    · exact h
    · have hn1 : n = 1 := by omega
      subst hn1
      have hlt0 : st2.index + 1 ≤ wodge.num_words := by rw [hzero]; omega
      have := mem_search_of_match wodge st2.word_buffer 1 st2.buf_ptr i1 hs2 hlt0
        (by rw [h7, h8]
            exact single_window_matches wodge st.word_buffer st.buf_ptr st2.index t hwb hbp h6)
      rw [hempty] at this
      simp at this

theorem seeding_match_set (wodge : WODGE) (n : Nat) (rand : Nat → Nat) (hn : 1 ≤ n)
    (hnw : n ≤ wodge.num_words) (st0 : GenState) (h : seeding wodge n rand = .ok st0) :
    ∃ found, search wodge st0.word_buffer n st0.buf_ptr = .ok found ∧
      st0.word_buffer.length = n ∧ st0.buf_ptr < n ∧ st0.restarts = 0 ∧ st0.index ∈ found := by
  obtain ⟨st1, seeds, h0, hinv, hr, _, _, _, _, hlt, hbp, hwb, _⟩ :=
    seeding_spec wodge n rand hn hnw
  rw [h0] at h
  cases h
  have hs := search_spec wodge st0.word_buffer n st0.buf_ptr hinv.wb_len
  refine ⟨_, hs, hinv.wb_len, hinv.bp_lt, hr, ?_⟩
  apply mem_search_of_match wodge st0.word_buffer n st0.buf_ptr hinv.wb_len hs hlt
  rw [hwb, hbp]
  exact fresh_window_matches wodge n st0.index hlt

/-- C12: for every corpus with `num_words >= n >= 1`: directly after the seeding
at start index `s` the match set contains `s`; after a pass that was a restart at
start index `s` the match set of the next pass contains `s`; after a normal step
that chose a match `m < num_words - n` the match set of the next pass contains
`m + 1`; so the match set of a pass is empty only if the pass before it was a
normal step that chose the match `num_words - n` and wrapped to index 0 (and
`n > 1`). For `n = 1` no pass of `disassociated_press` is a restart. -/
theorem match_set_after_pass (wodge : WODGE) (n : Nat)
    (avoid_normality show_boundaries : Bool) (rand : Nat → Nat) (fuel : Nat)
    (hn : 1 ≤ n) (hnw : n ≤ wodge.num_words) :
    (∀ st0, seeding wodge n rand = .ok st0 →
      ∃ found, search wodge st0.word_buffer n st0.buf_ptr = .ok found ∧
        st0.index ∈ found) ∧
    (∀ st st2 found, st.word_buffer.length = n → st.buf_ptr < n →
      search wodge st.word_buffer n st.buf_ptr = .ok found →
      iteration wodge n avoid_normality show_boundaries rand fuel st = .ok st2 →
      ∃ found2, search wodge st2.word_buffer n st2.buf_ptr = .ok found2 ∧
        (found = [] → st2.index ∈ found2) ∧
        (∀ m ∈ found, st2.index = (m + n) % wodge.num_words →
          m < wodge.num_words - n → m + 1 ∈ found2) ∧
        (found2 = [] →
          found ≠ [] ∧ wodge.num_words - n ∈ found ∧ st2.index = 0 ∧ 1 < n)) ∧
    (n = 1 → ∀ length st,
      disassociated_press wodge n length avoid_normality show_boundaries rand fuel =
        .ok st → st.restarts = 0) := by
  refine ⟨?_, ?_, ?_⟩
  · intro st0 h
    obtain ⟨found, hs, _, _, _, hm⟩ := seeding_match_set wodge n rand hn hnw st0 h
    exact ⟨found, hs, hm⟩
  · intro st st2 found hwb hbp hs hit
    obtain ⟨found2, h1, _, _, h2, _, h3, h4⟩ := next_match_set wodge n avoid_normality
      show_boundaries rand fuel hn hnw st st2 found hwb hbp hs hit
    exact ⟨found2, h1, fun h => (h2 h).2, h3, h4⟩
  · intro hn1 length st h
    let Q : GenState → Prop := fun s =>
      s.restarts = 0 ∧ s.word_buffer.length = n ∧ s.buf_ptr < n ∧
        ∃ found, search wodge s.word_buffer n s.buf_ptr = .ok found ∧ found ≠ []
    have hstep : ∀ s s2, Q s →
        iteration wodge n avoid_normality show_boundaries rand fuel s = .ok s2 → Q s2 := by
      intro s s2 ⟨q1, q2, q3, found, q4, q5⟩ hit
      obtain ⟨found2, h1, h2, h3, _, h5, _, h7⟩ := next_match_set wodge n avoid_normality
        show_boundaries rand fuel hn hnw s s2 found q2 q3 q4 hit
      refine ⟨by rw [h5 q5, q1], h2, h3, found2, h1, ?_⟩
      intro hempty
      have := (h7 hempty).2.2.2
      omega
    cases h0 : seeding wodge n rand with
    | error e => simp [disassociated_press, h0] at h
    | ok st0 =>
      obtain ⟨found, hs, hwb, hbp, hr, hm⟩ := seeding_match_set wodge n rand hn hnw st0 h0
      have hQ0 : Q st0 := ⟨hr, hwb, hbp, found, hs, List.ne_nil_of_mem hm⟩
      have hmain : mainLoop wodge n avoid_normality show_boundaries rand fuel length st0 =
          .ok st := by
        simpa [disassociated_press, h0] using h
      exact (mainLoop_induct wodge n avoid_normality show_boundaries rand fuel Q hstep
        length st0 st hQ0 hmain).1

/-- C12, witness: on the 9-token corpus with `n = 2`: the seeding at 5 has the
match set `[5]`; the step from the window `the cat` that chose the match 0 leads
to the window `cat sat` with the match set `[1]`; the step from the window
`cat ran` chose the match `7 = num_words - n`, wrapped to index 0, and leads to
the window `ran the` with an empty match set. -/
theorem match_set_after_pass_witness :
    (1 ≤ 2 ∧ 2 ≤ catWodge.num_words) ∧
    ((seeding catWodge 2 catDraws).map
        (fun st => (st.index, search catWodge st.word_buffer 2 st.buf_ptr)) =
      .ok (5, .ok [5]) ∧
    iteration catWodge 2 true false catDraws 2 catState = .ok catNext ∧
    search catWodge catState.word_buffer 2 catState.buf_ptr = .ok [0, 6] ∧
    catNext.index = (0 + 2) % catWodge.num_words ∧
    search catWodge catNext.word_buffer 2 catNext.buf_ptr = .ok [0 + 1] ∧
    (iteration catWodge 2 false false (fun _ => 0) 0 ranState).map
        (fun st => (st.index, search catWodge st.word_buffer 2 st.buf_ptr)) =
      .ok (0, .ok [])) ∧
    ((∀ st0, seeding catWodge 2 catDraws = .ok st0 →
      ∃ found, search catWodge st0.word_buffer 2 st0.buf_ptr = .ok found ∧
        st0.index ∈ found) ∧
    (∀ st st2 found, st.word_buffer.length = 2 → st.buf_ptr < 2 →
      search catWodge st.word_buffer 2 st.buf_ptr = .ok found →
      iteration catWodge 2 true false catDraws 2 st = .ok st2 →
      ∃ found2, search catWodge st2.word_buffer 2 st2.buf_ptr = .ok found2 ∧
        (found = [] → st2.index ∈ found2) ∧
        (∀ m ∈ found, st2.index = (m + 2) % catWodge.num_words →
          m < catWodge.num_words - 2 → m + 1 ∈ found2) ∧
        (found2 = [] →
          found ≠ [] ∧ catWodge.num_words - 2 ∈ found ∧ st2.index = 0 ∧ 1 < 2)) ∧
    (2 = 1 → ∀ length st,
      disassociated_press catWodge 2 length true false catDraws 2 = .ok st →
        st.restarts = 0)) :=
  ⟨by decide, by decide,
    match_set_after_pass catWodge 2 true false catDraws 2 (by decide) (by decide)⟩

/-! ## print_word -/

theorem stored_ne_newline (c : Byte) : stored c ≠ 10 := by
  unfold stored
  by_cases h : isspace c = true
  · rw [if_pos h]; decide
  · rw [if_neg h]
    intro hc
    apply h
    rw [hc]
    decide

theorem bind_eq_ok {α β : Type} {x : Except Fault α} {g : α → Except Fault β} {b : β}
    (h : (x >>= g) = .ok b) : ∃ a, x = .ok a ∧ g a = .ok b := by
  cases x with
  | error e => simp at h
  | ok a => exact ⟨a, rfl, h⟩

theorem get_words_data (f : List Byte) (wodge : WODGE) (h : get_words f = .ok wodge) :
    wodge.data = f.map stored ++ [0] := by
  unfold get_words at h
  obtain ⟨r, hs, h⟩ := bind_eq_ok h
  obtain ⟨data, data_sz⟩ := r
  have hd : data = f.map stored := by simpa using slurp_data f [] 64 _ hs
  subst hd
  simp only at h
  split at h
  · obtain ⟨r2, _, h⟩ := bind_eq_ok h
    obtain ⟨words, words_sz⟩ := r2
    simp only at h
    split at h
    · simp only [pure_eq_ok, Except.ok.injEq] at h
      rw [← h]
    · cases h
  · cases h

theorem tokens_no_newline (f : List Byte) (wodge : WODGE) (h : get_words f = .ok wodge) :
    ∀ t ∈ wodge.tokens, (10 : Byte) ∉ t := by
  have hdata := get_words_data f wodge h
  intro t ht hmem
  obtain ⟨off, _, rfl⟩ := List.mem_map.mp ht
  rw [hdata] at hmem
  have h1 : (10 : Byte) ∈ (f.map stored ++ [0]).drop off :=
    (List.takeWhile_sublist _).subset hmem
  have h2 : (10 : Byte) ∈ f.map stored ++ [0] := List.mem_of_mem_drop h1
  rcases List.mem_append.mp h2 with h3 | h3
  · obtain ⟨c, _, hc⟩ := List.mem_map.mp h3
    exact stored_ne_newline c hc
  · have : (10 : Byte) = 0 := List.mem_singleton.mp h3
    exact absurd this (by decide)

/-- The strings that `main` passes to `print_word` contain no newline character:
they are tokens of `get_words` or the marker. -/
theorem main_words_no_newline (f : List Byte) (n length : Nat)
    (avoid_normality show_boundaries : Bool) (rand : Nat → Nat) (fuel : Nat)
    (hn : 1 ≤ n) (wodge : WODGE) (hw : get_words f = .ok wodge) (hnw : n ≤ wodge.num_words)
    (st : GenState)
    (h : disassociated_press wodge n length avoid_normality show_boundaries rand fuel =
      .ok st) :
    ∀ w ∈ st.out.map Item.text, (10 : Byte) ∉ w := by
  rcases disassociated_press_spec wodge n length avoid_normality show_boundaries rand fuel
    hn hnw with ⟨_, h2⟩ | ⟨st2, h1, hinv, _, _⟩
  · rw [h2] at h; cases h
  · rw [h1] at h
    cases h
    intro w hwm
    obtain ⟨it, hit, rfl⟩ := List.mem_map.mp hwm
    have hv := hinv.out_valid it hit
    cases it with
    | seed i t => exact tokens_no_newline f wodge hw t (List.getElem?_mem hv)
    | step i t => exact tokens_no_newline f wodge hw t (List.getElem?_mem hv)
    | marker => decide

end Dispress
